import Mathlib

/-!
Verification development for the LinkSaver bookmarking application.

The definitions below are a shallow embedding of the TypeScript source in
`src/src/lib/api.ts` (the `BookmarkAPI` class variant that declares
`MAX_RETRIES`, `processAndValidateTags`, `normalizeUrl`, `enhanceSummary`,
`rankSearchResults`, `withRetry`, `getMaxPosition`, `getFallbackMetadata`
and `getFallbackSummary`) together with `cleanTags` from the sibling
variant of the same class.

JavaScript strings are modelled as lists of UTF-16 code units
(`List Nat`); all inputs relevant to the claims are plain BMP text, for
which one code unit is one character and `String.prototype.length`
coincides with `List.length`.  `toLowerCase`/`toUpperCase` are modelled on
the ASCII range (the only range the embedded code paths rely on), and the
platform `URL` constructor is modelled by a parser for
`scheme://host[/path][?query][#fragment]` shaped URLs; strings the parser
rejects correspond to inputs on which `new URL(...)` throws.
-/

set_option maxRecDepth 4000

/-- A JavaScript string: the list of its UTF-16 code units. -/
abbrev Str := List Nat

/-- Embed a Lean string literal as a list of code units (BMP text only). -/
def str (s : String) : Str := s.data.map Char.toNat

/-- The JavaScript whitespace class: the code units matched by the regex
class `\s` and stripped by `String.prototype.trim`. -/
def isJsWs (n : Nat) : Bool :=
  decide (n = 9 ∨ n = 10 ∨ n = 11 ∨ n = 12 ∨ n = 13 ∨ n = 32 ∨ n = 160 ∨ n = 5760 ∨
    (8192 ≤ n ∧ n ≤ 8202) ∨ n = 8232 ∨ n = 8233 ∨ n = 8239 ∨ n = 8287 ∨ n = 12288 ∨
    n = 65279)

/-- Decimal digit code units, 48..57 = 0..9. -/
def isDigitCU (n : Nat) : Bool := decide (48 ≤ n ∧ n ≤ 57)

/-- Upper-case ASCII letters, 65..90 = A..Z. -/
def isUpperCU (n : Nat) : Bool := decide (65 ≤ n ∧ n ≤ 90)

/-- Lower-case ASCII letters, 97..122 = a..z. -/
def isLowerCU (n : Nat) : Bool := decide (97 ≤ n ∧ n ≤ 122)

/-- ASCII letters. -/
def isAlphaCU (n : Nat) : Bool := isUpperCU n || isLowerCU n

/-- The `toLowerCase` action on one code unit (ASCII range). -/
def lowerCU (n : Nat) : Nat := if 65 ≤ n ∧ n ≤ 90 then n + 32 else n

/-- The `toUpperCase` action on one code unit (ASCII range). -/
def upperCU (n : Nat) : Nat := if 97 ≤ n ∧ n ≤ 122 then n - 32 else n

/-- Model of `String.prototype.toLowerCase`. -/
def jsToLower (l : Str) : Str := l.map lowerCU

/-- Strip trailing whitespace, the second half of `String.prototype.trim`. -/
def dropTrailingWs (l : Str) : Str := (l.reverse.dropWhile isJsWs).reverse

/-- Model of `String.prototype.trim`: strip leading and trailing whitespace. -/
def jsTrim (l : Str) : Str := dropTrailingWs (l.dropWhile isJsWs)

/-- The per-tag preprocessing `tag.trim().toLowerCase()` shared by
`processAndValidateTags` and `cleanTags`. -/
def normalizeTag (t : Str) : Str := jsToLower (jsTrim t)

/-- Membership in the character class of the tag-validation regex
`[a-zA-Z0-9\s-_]` (ASCII alphanumerics, whitespace, hyphen 45, underscore 95). -/
def tagCharOk (n : Nat) : Bool :=
  isAlphaCU n || isDigitCU n || isJsWs n || decide (n = 45) || decide (n = 95)

/-- Model of the test `/^[a-zA-Z0-9\s-_]+$/.test(tag)`: non-empty and every
code unit in the class. -/
def tagPatternOk (t : Str) : Bool := decide (t ≠ []) && t.all tagCharOk

/-- Model of `.filter((tag, index, arr) => arr.indexOf(tag) === index)`:
keep the first occurrence of each element.  `seen` accumulates the
elements already emitted. -/
def dedupFirstAux (seen : List Str) : List Str → List Str
  | [] => []
  | x :: xs => if x ∈ seen then dedupFirstAux seen xs else x :: dedupFirstAux (x :: seen) xs

/-- Keep the first occurrence of each element, preserving order. -/
def dedupFirst (l : List Str) : List Str := dedupFirstAux [] l

/-- `BookmarkAPI.processAndValidateTags`: trim and lower-case each tag, keep
the non-empty ones of length at most 30 that match the character pattern,
deduplicate keeping first occurrences, and truncate to 15 entries. -/
def processAndValidateTags (tags : List Str) : List Str :=
  (dedupFirst
    (((tags.map normalizeTag).filter
        (fun tag => decide (0 < tag.length) && decide (tag.length ≤ 30))).filter
      tagPatternOk)).take 15

/-- `BookmarkAPI.cleanTags` (the sibling variant): trim and lower-case each
tag, keep the non-empty ones of length at most 50, deduplicate keeping
first occurrences, and truncate to 10 entries.  There is no character
pattern filter in this variant. -/
def cleanTags (tags : List Str) : List Str :=
  (dedupFirst
    ((tags.map normalizeTag).filter
      (fun tag => decide (0 < tag.length) && decide (tag.length ≤ 50)))).take 10

example : processAndValidateTags [str ("Work"), str ("work"), str (" TODO ")] =
    [str ("work"), str ("todo")] := by decide

example : cleanTags [str ("a!")] = [str ("a!")] := by decide

/-! ## URL model

The platform `URL` constructor is modelled as a parser for
`scheme://host[/path][?query][#fragment]`.  `none` corresponds to inputs
on which `new URL(...)` throws.  Query strings are interpreted as
`URLSearchParams` does: split on `&` (38), empty segments ignored, each
segment split at its first `=` (61) into a name and a value.
Percent-decoding is not modelled; the tracking-parameter names involved
are plain ASCII. -/

/-- Model of `String.prototype.split` with a one-character separator:
split at every occurrence, keeping empty parts (`split` of the empty
string is `[""]`). -/
def splitSep (a : Nat) (l : Str) : List Str :=
  match l with
  | [] => [[]]
  | c :: cs =>
    let r := splitSep a cs
    if c = a then [] :: r
    else
      match r with
      | s :: ss => (c :: s) :: ss
      | [] => [[c]]

/-- Model of `Array.prototype.join` with a one-character separator. -/
def joinSep (a : Nat) : List Str → Str
  | [] => []
  | [s] => s
  | s :: ss => s ++ a :: joinSep a ss

/-- A parsed URL.  `host` keeps an optional `:port` suffix (as `URL.host`
does); `path` always starts with `/` (47) as for special schemes. -/
structure UrlModel where
  scheme : Str
  host : Str
  path : Str
  query : Option Str
  fragment : Option Str
deriving DecidableEq

/-- Code units terminating the host component: slash 47, question mark 63,
hash 35. -/
def isHostEnd (n : Nat) : Bool := decide (n = 47) || decide (n = 63) || decide (n = 35)

/-- Code units terminating the path component: question mark 63, hash 35. -/
def isPathEnd (n : Nat) : Bool := decide (n = 63) || decide (n = 35)

/-- The query/fragment tail of the parser: a leading `?` (63) starts the
query, which runs to a `#` (35) starting the fragment. -/
def parseQF (r4 : Str) : Option Str × Option Str :=
  match r4 with
  | [] => (none, none)
  | c :: rest =>
    if c = 63 then
      let q := rest.takeWhile (fun k => !decide (k = 35))
      match rest.dropWhile (fun k => !decide (k = 35)) with
      | [] => (some q, none)
      | d :: f => if d = 35 then (some q, some f) else (some q, none)
    else if c = 35 then (none, some rest)
    else (none, none)

/-- The part of the parser after `scheme://`: a non-empty host up to
`/`, `?` or `#`, then a path up to `?` or `#` (defaulting to `/`), then
the query/fragment tail. -/
def parseRest (r2 : Str) : Option (Str × Str × Option Str × Option Str) :=
  let host := r2.takeWhile (fun c => !isHostEnd c)
  if host = [] then none else
  let r3 := r2.dropWhile (fun c => !isHostEnd c)
  let path0 := r3.takeWhile (fun c => !isPathEnd c)
  let path := if path0 = [] then [47] else path0
  let qf := parseQF (r3.dropWhile (fun c => !isPathEnd c))
  some (host, path, qf.1, qf.2)

/-- Model of the platform URL parser for `scheme://...` URLs. -/
def parseUrl (s : Str) : Option UrlModel :=
  let scheme := s.takeWhile isAlphaCU
  if scheme = [] then none else
  match s.drop scheme.length with
  | 58 :: 47 :: 47 :: r2 =>
    match parseRest r2 with
    | some (h, p, q, f) => some ⟨scheme, h, p, q, f⟩
    | none => none
  | _ => none

/-- Serialize a URL back to a string, as `URL.prototype.toString` renders
the modelled components. -/
def serializeUrl (u : UrlModel) : Str :=
  u.scheme ++ 58 :: 47 :: 47 :: (u.host ++ u.path
    ++ (match u.query with | some q => 63 :: q | none => [])
    ++ (match u.fragment with | some f => 35 :: f | none => []))

/-- Non-empty `&`-separated segments of a query string, as
`URLSearchParams` splits it. -/
def querySegments (q : Str) : List Str :=
  (splitSep 38 q).filter (fun seg => decide (seg ≠ []))

/-- The name part of a query segment: everything before the first `=`. -/
def segName (seg : Str) : Str := seg.takeWhile (fun c => !decide (c = 61))

/-- The value part of a query segment: everything after the first `=`
(empty when there is no `=`). -/
def segValue (seg : Str) : Str := (seg.dropWhile (fun c => !decide (c = 61))).drop 1

/-- The name/value pairs of a query string. -/
def queryPairs (q : Str) : List (Str × Str) :=
  (querySegments q).map (fun seg => (segName seg, segValue seg))

/-- Serialization of one pair by `URLSearchParams.toString`: `name=value`. -/
def serializePair (p : Str × Str) : Str := p.1 ++ 61 :: p.2

/-- Serialization of a pair list by `URLSearchParams.toString`. -/
def serializePairs (ps : List (Str × Str)) : Str :=
  joinSep 38 (ps.map serializePair)

/-- The name/value pairs of a parsed URL. -/
def urlQueryPairs (u : UrlModel) : List (Str × Str) :=
  match u.query with
  | some q => queryPairs q
  | none => []

/-- The fixed list of parameter names deleted by
`BookmarkAPI.normalizeUrl`. -/
def trackingParams : List Str :=
  [str ("utm_source"), str ("utm_medium"), str ("utm_campaign"), str ("fbclid"),
   str ("gclid")]

/-- The effect of the five `searchParams.delete` calls followed by
re-serialization of the parameter list: drop every pair whose name is in
`trackingParams`; an empty resulting list clears the query. -/
def deleteTrackingParams (u : UrlModel) : UrlModel :=
  let kept := (urlQueryPairs u).filter (fun p => decide (p.1 ∉ trackingParams))
  { u with query := if kept = [] then none else some (serializePairs kept) }

/-- `BookmarkAPI.normalizeUrl`: parse, delete the tracking parameters and
re-serialize; return the input unchanged when parsing throws. -/
def normalizeUrl (url : Str) : Str :=
  match parseUrl url with
  | some u => serializeUrl (deleteTrackingParams u)
  | none => url

example : normalizeUrl (str ("https://example.com/foo-bar?utm_source=x")) =
    str ("https://example.com/foo-bar") := by decide

example : normalizeUrl (str ("https://example.com/a?utm_term=x")) =
    str ("https://example.com/a?utm_term=x") := by decide

example : parseUrl (str ("not a url")) = none := by decide

/-! ## Fallback synthesizer -/

/-- Model of `URL.hostname` on the parsed host: strip an optional `:port`
suffix (58 = colon). -/
def hostName (u : UrlModel) : Str := u.host.takeWhile (fun c => !decide (c = 58))

/-- Model of `String.prototype.replace` with a plain-string pattern:
replace the first occurrence of `pat` (assumed non-empty) by `repl`. -/
def replaceFirst (pat repl : Str) : Str → Str
  | [] => []
  | c :: cs =>
    if pat.isPrefixOf (c :: cs) then repl ++ (c :: cs).drop pat.length
    else c :: replaceFirst pat repl cs

/-- Model of `s.charAt(0).toUpperCase() + s.slice(1)`. -/
def capitalizeFirst (l : Str) : Str :=
  match l with
  | [] => []
  | c :: cs => upperCU c :: cs

/-- Model of `.replace(/[-_]/g, ' ')`: hyphen 45 and underscore 95 become
space 32. -/
def dashUnderscoreToSpace (l : Str) : Str :=
  l.map (fun n => if n = 45 ∨ n = 95 then 32 else n)

/-- Model of `.replace(/\.[^.]*$/, '')`: drop the last dot (46) and
everything after it, when a dot is present. -/
def removeExt (l : Str) : Str :=
  if 46 ∈ l then ((l.reverse.dropWhile (fun c => !decide (c = 46))).drop 1).reverse
  else l

/-- Non-empty `/`-separated path segments: `path.split('/').filter(part => part)`. -/
def pathSegments (path : Str) : List Str :=
  (splitSep 47 path).filter (fun part => decide (part ≠ []))

/-- The readable form of the last path segment built by
`getFallbackMetadata` and its siblings: hyphens and underscores to
spaces, extension removed, each space-separated word capitalized. -/
def prettyLastPart (lp : Str) : Str :=
  joinSep 32 ((splitSep 32 (removeExt (dashUnderscoreToSpace lp))).map capitalizeFirst)

/-- A `{title, favicon}` pair as produced by the metadata extractors. -/
structure MetaResult where
  title : Str
  favicon : Str
deriving DecidableEq

/-- The embedded SVG placeholder favicon returned when URL parsing fails. -/
def placeholderFavicon : Str :=
  str ("data:image/svg+xml;base64,PHN2ZyB3aWR0aD0iMjQiIGhlaWdodD0iMjQiIHZpZXdCb3g9IjAgMCAyNCAyNCIgZmlsbD0ibm9uZSIgeG1sbnM9Imh0dHA6Ly93d3cudzMub3JnLzIwMDAvc3ZnIj4KPHBhdGggZD0iTTEyIDJMMTQgN0gyMUwxNSAxMUwxNyAyMEwxMiAxNkw3IDIwTDkgMTFMMyA3SDEwTDEyIDJaIiBmaWxsPSIjNjM2NjcwIi8+Cjwvc3ZnPgo=")

/-- The favicon-service URL template `https://www.google.com/s2/favicons?domain=<d>&sz=32`. -/
def faviconFor (domain : Str) : Str :=
  str ("https://www.google.com/s2/favicons?domain=") ++ domain ++ str ("&sz=32")

/-- `BookmarkAPI.getFallbackMetadata`: derive a title from the hostname
(with a leading `www.` occurrence removed and the first letter
capitalized) and the last path segment; on parse failure return the fixed
`Saved Link` title and the placeholder favicon. -/
def getFallbackMetadata (url : Str) : MetaResult :=
  match parseUrl url with
  | none => ⟨str ("Saved Link"), placeholderFavicon⟩
  | some u =>
    let domain := replaceFirst (str ("www.")) [] (hostName u)
    let path := u.path
    let base := capitalizeFirst domain
    let title :=
      if path ≠ [] ∧ path ≠ str ("/") ∧ 1 < path.length then
        match (pathSegments path).getLast? with
        | some lp =>
          let lastPart := prettyLastPart lp
          if 0 < lastPart.length ∧ lastPart.length < 50 then
            base ++ str (" - ") ++ lastPart
          else base
        | none => base
      else base
    ⟨title, faviconFor domain⟩

/-- The static domain-context table of `getFallbackSummary`, in source
order. -/
def domainContexts : List (Str × Str) :=
  [(str ("github.com"), str ("This is a code repository containing development resources and documentation.")),
   (str ("stackoverflow.com"), str ("This is a programming question with community-driven answers and solutions.")),
   (str ("medium.com"), str ("This is an article or blog post with insights and detailed information.")),
   (str ("dev.to"), str ("This is a developer community article with technical content and tutorials.")),
   (str ("youtube.com"), str ("This is video content with visual learning material and demonstrations.")),
   (str ("twitter.com"), str ("This is social media content with quick insights and discussions.")),
   (str ("linkedin.com"), str ("This is professional networking content with industry insights.")),
   (str ("reddit.com"), str ("This is community discussion with diverse perspectives and opinions.")),
   (str ("wikipedia.org"), str ("This is an encyclopedia article with comprehensive and factual information.")),
   (str ("docs.google.com"), str ("This is a collaborative document with shared information.")),
   (str ("notion.so"), str ("This is organized content in a structured and accessible format."))]

/-- The fixed sentence `getFallbackSummary` returns when URL parsing
fails. -/
def fallbackSummaryOnParseFailure : Str :=
  str ("This bookmark contains valuable content that you saved for future reference. Click to explore the full page and discover the information within.")

/-- `BookmarkAPI.getFallbackSummary`: look the domain up in the context
table by substring containment (first matching entry wins) and compose a
sentence; on parse failure return the fixed reference sentence. -/
def getFallbackSummary (url : Str) : Str :=
  match parseUrl url with
  | none => fallbackSummaryOnParseFailure
  | some u =>
    let domain := replaceFirst (str ("www.")) [] (hostName u)
    match domainContexts.find? (fun kv => decide (kv.1 <:+: domain)) with
    | some kv =>
      kv.2 ++ str (" This bookmark contains valuable information from ") ++ domain
        ++ str (" that you saved for future reference.")
    | none =>
      str ("This bookmark contains valuable content from ") ++ domain
        ++ str (". The page includes important information that you saved for future reference and easy access.")

example : (getFallbackMetadata (str ("https://www.example.com/my-page.html"))).title =
    str ("Example.com - My Page") := by decide

example : getFallbackMetadata (str ("nonsense")) =
    ⟨str ("Saved Link"), placeholderFavicon⟩ := by decide

example : getFallbackSummary (str ("notaurl")) = fallbackSummaryOnParseFailure := by
  decide

/-! ## Metadata extraction pipeline

`extractMetadataWithRetry` iterates its extractor list; each extractor is
an outbound network call, so one run of the pipeline is modelled by the
list of the settled per-extractor outcomes: `none` when
`withRetry(extractor, ...)` ultimately rejected, `some r` when it
resolved to `r`. -/

/-- A `{title, favicon, method}` result of the extraction pipeline. -/
structure MetaWithMethod where
  title : Str
  favicon : Str
  method : String
deriving DecidableEq

/-- The acceptance test `result.title && result.title.length > 3`. -/
def acceptTitle (r : MetaResult) : Bool :=
  decide (r.title ≠ []) && decide (3 < r.title.length)

/-- The extractor loop of `extractMetadataWithRetry`: take the first
settled result that passes `acceptTitle`, tagging it `extractor_<i>`
(1-based); when the list is exhausted fall back to
`getFallbackMetadata` tagged `fallback`. -/
def extractAux (url : Str) : Nat → List (Option MetaResult) → MetaWithMethod
  | _, [] =>
    ⟨(getFallbackMetadata url).title, (getFallbackMetadata url).favicon, "fallback"⟩
  | i, none :: rest => extractAux url (i + 1) rest
  | i, some r :: rest =>
    if acceptTitle r then ⟨r.title, r.favicon, "extractor_" ++ Nat.repr i⟩
    else extractAux url (i + 1) rest

/-- `BookmarkAPI.extractMetadataWithRetry` on the settled outcomes of its
extractors (a fresh run, no cache entry). -/
def extractMetadataWithRetry (url : Str) (outcomes : List (Option MetaResult)) :
    MetaWithMethod :=
  extractAux url 1 outcomes

/-! ## Retry wrapper -/

/-- The configured `MAX_RETRIES` constant. -/
def MAX_RETRIES : Nat := 3

/-- The configured `RETRY_DELAY` constant (milliseconds). -/
def RETRY_DELAY : Rat := 1000

/-- `BookmarkAPI.withRetry`.  The operation is modelled as a function from
the invocation index to its settled outcome.  The model returns the final
outcome together with the number of invocations performed and the list of
waits (in order).  `withRetry fn retries delay a` corresponds to the
source call with `retries` retries remaining, current `delay`, invoking
attempt number `a` next. -/
def withRetry {ε α : Type} (fn : Nat → Except ε α) :
    Nat → Rat → Nat → Except ε α × Nat × List Rat
  | retries, delay, a =>
    match fn a with
    | .ok v => (.ok v, 1, [])
    | .error e =>
      match retries with
      | 0 => (.error e, 1, [])
      | r + 1 =>
        let t := withRetry fn r (delay * (3 / 2)) (a + 1)
        (t.1, t.2.1 + 1, delay :: t.2.2)

/-! ## Bookmark store -/

/-- The projection of a stored bookmark row onto the fields the store
logic reads and writes (`user_id`, `url`, `tags`, `position`).  The
enrichment fields (`title`, `favicon`, `summary`, timestamps) do not feed
back into any embedded operation. -/
structure StoredBookmark where
  user_id : Str
  url : Str
  tags : List Str
  position : Int
deriving DecidableEq

/-- The caller-supplied part of `BookmarkInput` that the store logic
uses. -/
structure BookmarkInput where
  url : Str
  tags : List Str
deriving DecidableEq

/-- The positions of one owner's bookmarks, as selected by
`.eq('user_id', userId)`. -/
def userPositions (u : Str) (s : List StoredBookmark) : List Int :=
  (s.filter (fun b => decide (b.user_id = u))).map (fun b => b.position)

/-- Maximum of a list of positions, `none` on the empty list (the
`order('position', descending).limit(1)` read). -/
def listMax? : List Int → Option Int
  | [] => none
  | x :: xs =>
    match listMax? xs with
    | none => some x
    | some m => some (max x m)

/-- `BookmarkAPI.getMaxPosition`: the owner's maximum position, or 0 when
the owner has no bookmarks (`data?.[0]?.position || 0`). -/
def getMaxPosition (u : Str) (s : List StoredBookmark) : Int :=
  (listMax? (userPositions u s)).getD 0

/-- The store-relevant effect of `BookmarkAPI.createBookmark`:
`maxPosReadOk` records whether the `getMaxPosition` promise fulfilled
(`Promise.allSettled` replaces a rejection by 0), the stored URL is
`normalizeUrl`, the stored tags are `processAndValidateTags`, and the new
position is the position result plus one.  Returns the inserted row and
the store after the insert. -/
def createBookmark (u : Str) (inp : BookmarkInput) (maxPosReadOk : Bool)
    (s : List StoredBookmark) : StoredBookmark × List StoredBookmark :=
  let positionResult : Int := if maxPosReadOk then getMaxPosition u s else 0
  let b : StoredBookmark :=
    ⟨u, normalizeUrl inp.url, processAndValidateTags inp.tags, positionResult + 1⟩
  (b, s ++ [b])

/-- A sequence of bookmark creations by one owner with no concurrent
writers and successful max-position reads; each created row is paired
with the store state at the time of its create. -/
def createSeq (u : Str) : List BookmarkInput → List StoredBookmark →
    List (StoredBookmark × List StoredBookmark)
  | [], _ => []
  | inp :: rest, s =>
    ((createBookmark u inp true s).1, s) :: createSeq u rest (createBookmark u inp true s).2

/-! ## Summary post-processing -/

/-- Scan for `.replace(/\s+/g, ' ')`: `prevWs` records whether the
previous code unit was whitespace, so that each maximal whitespace run
emits exactly one space 32. -/
def collapseWsAux (prevWs : Bool) : Str → Str
  | [] => []
  | c :: cs =>
    if isJsWs c then
      if prevWs then collapseWsAux true cs else 32 :: collapseWsAux true cs
    else c :: collapseWsAux false cs

/-- Model of `.replace(/\s+/g, ' ')`: each maximal whitespace run becomes
one space. -/
def collapseWs (l : Str) : Str := collapseWsAux false l

/-- The alternatives of the lead-in regex `^(this|the|a|an)\s+`, in
source order (already lower-case, compared case-insensitively). -/
def leadinWords : List Str := [str ("this"), str ("the"), str ("a"), str ("an")]

/-- Case-insensitive prefix test for a lower-case pattern `w`. -/
def startsWithCI (w l : Str) : Bool := decide ((l.take w.length).map lowerCU = w)

/-- Whether the code unit at index `k` exists and is whitespace. -/
def wsAfter (k : Nat) (l : Str) : Bool :=
  match l.drop k with
  | d :: _ => isJsWs d
  | [] => false

/-- Model of `.replace(/^(this|the|a|an)\s+/i, '')`: drop the first
alternative that matches at the start and is followed by whitespace,
together with the whole whitespace run. -/
def stripLead (l : Str) : Str :=
  match leadinWords.find? (fun w => startsWithCI w l && wsAfter w.length l) with
  | some w => (l.drop w.length).dropWhile isJsWs
  | none => l

/-- The alternatives of the filler regex
`\b(click here|read more|continue reading|learn more)\b`, in source
order. -/
def fillerPhrases : List Str :=
  [str ("click here"), str ("read more"), str ("continue reading"), str ("learn more")]

/-- Regex word characters: ASCII alphanumerics and underscore 95. -/
def isWordCU (n : Nat) : Bool := isAlphaCU n || isDigitCU n || decide (n = 95)

/-- Whether a word boundary holds after `k` code units of `l`: end of
string or a non-word unit. -/
def boundaryAfter (k : Nat) (l : Str) : Bool :=
  match l.drop k with
  | d :: _ => !isWordCU d
  | [] => true

/-- The first filler phrase matching at the head of `l` with a word
boundary after it (the phrases start and end with word characters, so the
leading boundary is checked by the caller). -/
def findFillerAt (l : Str) : Option Str :=
  fillerPhrases.find? (fun ph => startsWithCI ph l && boundaryAfter ph.length l)

/-- Scan for the global case-insensitive filler replacement.  `prevWord`
records whether the previous code unit of the original string is a word
character (no match can start without a leading boundary).  `fuel` is a
structural-recursion bound; every step consumes at least one code unit,
so any `fuel` of at least `l.length` yields the full scan. -/
def removeFillerAux (fuel : Nat) (prevWord : Bool) (l : Str) : Str :=
  match fuel, l with
  | _, [] => []
  | 0, l => l
  | fuel + 1, c :: cs =>
    match (if prevWord then none else findFillerAt (c :: cs)) with
    | some ph => removeFillerAux fuel true (cs.drop (ph.length - 1))
    | none => c :: removeFillerAux fuel (isWordCU c) cs

/-- Model of
`.replace(/\b(click here|read more|continue reading|learn more)\b/gi, '')`. -/
def removeFiller (l : Str) : Str := removeFillerAux l.length false l

/-- `BookmarkAPI.enhanceSummary`: collapse whitespace, strip the lead-in,
remove the filler phrases, trim, and truncate to 500 code units
(`substring(0, 500)`, no ellipsis). -/
def enhanceSummary (summary : Str) : Str :=
  (jsTrim (removeFiller (stripLead (collapseWs summary)))).take 500

example : enhanceSummary (str ("This  is a   page. Click Here to read more!")) =
    str ("is a page.  to !") := by decide

/-! ## Search ranking -/

/-- The bookmark fields read by the relevance scorer.  `created_at` is the
creation time in milliseconds. -/
structure RankedBookmark where
  title : Str
  url : Str
  summary : Str
  tags : List Str
  created_at : Rat
deriving DecidableEq

/-- `BookmarkAPI.calculateRelevanceScore` for an already lower-cased
query: 10 for a title match, 5 for a URL match, 3 for a summary match, 7
per matching tag, plus a recency bonus `max(0, 5 - days * 0.1)`. -/
def calculateRelevanceScore (b : RankedBookmark) (queryLower : Str) (now : Rat) : Rat :=
  (if decide (queryLower <:+: jsToLower b.title) then 10 else 0)
  + (if decide (queryLower <:+: jsToLower b.url) then 5 else 0)
  + (if decide (queryLower <:+: jsToLower b.summary) then 3 else 0)
  + 7 * ((b.tags.filter (fun tag => decide (queryLower <:+: jsToLower tag))).length : Rat)
  + max 0 (5 - ((now - b.created_at) / 86400000) * (1 / 10))

/-- `BookmarkAPI.rankSearchResults`: score every bookmark, sort by
descending score (stable, as `Array.prototype.sort`), and drop the
scores. -/
def rankSearchResults (bookmarks : List RankedBookmark) (query : Str) (now : Rat) :
    List RankedBookmark :=
  let queryLower := jsToLower query
  (((bookmarks.map (fun b => (b, calculateRelevanceScore b queryLower now))).mergeSort
      (fun a b => decide (b.2 ≤ a.2))).map (fun p => p.1))

/-! ## Auxiliary predicates used by the statements -/

/-- An extractor outcome the pipeline accepts: a fulfilled result whose
title passes `acceptTitle`. -/
def acceptedOutcome (o : Option MetaResult) : Prop :=
  ∃ r, o = some r ∧ acceptTitle r = true

/-- An operation that fails on every invocation. -/
def constFail : Nat → Except Unit Unit := fun _ => .error ()

/-- The shape invariants `parseUrl` guarantees for its results; they are
exactly what makes `serializeUrl` a right inverse of `parseUrl`. -/
def WellFormedUrl (u : UrlModel) : Prop :=
  u.scheme ≠ [] ∧ (∀ c ∈ u.scheme, isAlphaCU c = true) ∧
  u.host ≠ [] ∧ (∀ c ∈ u.host, isHostEnd c = false) ∧
  (∃ p, u.path = 47 :: p) ∧ (∀ c ∈ u.path, isPathEnd c = false) ∧
  (∀ q, u.query = some q → ∀ c ∈ q, c ≠ 35)

/-! # Theorems -/

/-! ## C4: totality of the fallback synthesizer -/

/-- C4: for every input string, `getFallbackMetadata` and
`getFallbackSummary` are total (they are plain functions of the input,
never raising), and on URL-parse failure they return the fixed generic
title `Saved Link` (with the placeholder favicon) and the fixed generic
reference sentence. -/
theorem fallback_total_on_parse_failure (url : Str) (h : parseUrl url = none) :
    getFallbackMetadata url = ⟨str ("Saved Link"), placeholderFavicon⟩ ∧
    getFallbackSummary url = fallbackSummaryOnParseFailure := by
  constructor
  · simp [getFallbackMetadata, h]
  · simp [getFallbackSummary, h]

/-- Witness for C4 at the non-URL input `this is not a url`. -/
theorem fallback_total_on_parse_failure_witness :
    getFallbackMetadata (str ("this is not a url")) =
        ⟨str ("Saved Link"), placeholderFavicon⟩ ∧
    getFallbackSummary (str ("this is not a url")) = fallbackSummaryOnParseFailure :=
  fallback_total_on_parse_failure (str ("this is not a url")) (by decide)

/-! ## C10: position defaults on read failure or empty store -/

/-- C10: when the max-position read rejects (`maxPosReadOk = false`),
`createBookmark` still succeeds and assigns position `0 + 1 = 1`
whatever the store contains; and when the owner has no bookmarks, the
assigned position is also 1. -/
theorem createBookmark_position_defaults (u : Str) (inp : BookmarkInput)
    (s : List StoredBookmark) :
    (createBookmark u inp false s).1.position = 1 ∧
    (userPositions u s = [] → (createBookmark u inp true s).1.position = 1) := by
  constructor
  · simp [createBookmark]
  · intro h
    simp [createBookmark, getMaxPosition, h, listMax?]

/-- Witness for C10: a failed read over a store that does contain an
owner bookmark at position 99 still yields position 1, and an owner with
no bookmarks gets position 1. -/
theorem createBookmark_position_defaults_witness :
    (createBookmark (str ("u1")) ⟨str ("https://a.b/c"), []⟩ false
        [⟨str ("u1"), str ("https://a.b/x"), [], 99⟩]).1.position = 1 ∧
    (createBookmark (str ("u2")) ⟨str ("https://a.b/c"), []⟩ true []).1.position = 1 := by
  refine ⟨(createBookmark_position_defaults _ _ _).1, ?_⟩
  exact (createBookmark_position_defaults (str ("u2")) ⟨str ("https://a.b/c"), []⟩ []).2
    (by decide)

/-! ## C3: first-acceptance semantics of the extraction pipeline -/

/-- When no outcome is accepted, the extractor loop falls through to the
tagged fallback, from any starting index. -/
theorem extractAux_fallback (url : Str) (outcomes : List (Option MetaResult)) :
    ∀ i, (∀ o ∈ outcomes, ¬ acceptedOutcome o) →
      extractAux url i outcomes =
        ⟨(getFallbackMetadata url).title, (getFallbackMetadata url).favicon, "fallback"⟩ := by
  induction outcomes with
  | nil => intro i _; rfl
  | cons o rest ih =>
    intro i h
    match o with
    | none => exact ih (i + 1) (fun o ho => h o (List.mem_cons_of_mem _ ho))
    | some r =>
      have hr : acceptTitle r = false := by
        rcases Bool.eq_false_or_eq_true (acceptTitle r) with ht | hf
        · exact absurd ⟨r, rfl, ht⟩ (h _ (List.mem_cons_self _ _))
        · exact hf
      simp only [extractAux, hr, Bool.false_eq_true, if_false]
      exact ih (i + 1) (fun o ho => h o (List.mem_cons_of_mem _ ho))

/-- The extractor loop returns the first accepted outcome, tagged with its
1-based index from the starting index `i`. -/
theorem extractAux_accept (url : Str) (r : MetaResult)
    (post : List (Option MetaResult)) (hr : acceptTitle r = true) :
    ∀ (pre : List (Option MetaResult)) (i : Nat), (∀ o ∈ pre, ¬ acceptedOutcome o) →
      extractAux url i (pre ++ some r :: post) =
        ⟨r.title, r.favicon, "extractor_" ++ Nat.repr (i + pre.length)⟩ := by
  intro pre
  induction pre with
  | nil =>
    intro i _
    simp only [List.nil_append, extractAux, hr, if_true, List.length_nil, Nat.add_zero]
  | cons o pre' ih =>
    intro i h
    have htail : ∀ o ∈ pre', ¬ acceptedOutcome o :=
      fun o ho => h o (List.mem_cons_of_mem _ ho)
    have harith : i + 1 + pre'.length = i + (o :: pre').length := by
      simp [List.length_cons]; omega
    match o with
    | none =>
      show extractAux url (i + 1) (pre' ++ some r :: post) = _
      rw [ih (i + 1) htail, harith]
    | some r' =>
      have hr' : acceptTitle r' = false := by
        rcases Bool.eq_false_or_eq_true (acceptTitle r') with ht | hf
        · exact absurd ⟨r', rfl, ht⟩ (h _ (List.mem_cons_self _ _))
        · exact hf
      simp only [List.cons_append, extractAux, hr', Bool.false_eq_true, if_false,
        List.append_eq]
      rw [ih (i + 1) htail, harith]

/-- C3: the metadata pipeline scans its extractor outcomes in order;
if some outcome is fulfilled with an accepted title (non-empty and longer
than 3 units) it returns that result tagged with the strategy's method
name `extractor_<position>`, and if every outcome is unaccepted it
returns the fallback synthesizer's result tagged `fallback`.  The
function is total, so it never raises past its own boundary. -/
theorem extract_first_accept (url : Str) (outcomes : List (Option MetaResult)) :
    ((∀ o ∈ outcomes, ¬ acceptedOutcome o) →
      extractMetadataWithRetry url outcomes =
        ⟨(getFallbackMetadata url).title, (getFallbackMetadata url).favicon, "fallback"⟩) ∧
    (∀ (pre : List (Option MetaResult)) (r : MetaResult) (post : List (Option MetaResult)),
      outcomes = pre ++ some r :: post → acceptTitle r = true →
      (∀ o ∈ pre, ¬ acceptedOutcome o) →
      extractMetadataWithRetry url outcomes =
        ⟨r.title, r.favicon, "extractor_" ++ Nat.repr (pre.length + 1)⟩) := by
  constructor
  · intro h
    exact extractAux_fallback url outcomes 1 h
  · intro pre r post heq hr hpre
    subst heq
    rw [extractMetadataWithRetry, extractAux_accept url r post hr pre 1 hpre,
      Nat.add_comm]

/-- Witness for C3: the second extractor fulfils with an accepted title
after the first rejects, and the pipeline returns it tagged
`extractor_2`. -/
theorem extract_first_accept_witness :
    extractMetadataWithRetry (str ("https://example.com/page"))
        [none, some ⟨str ("Example Title"), str ("icon")⟩] =
      ⟨str ("Example Title"), str ("icon"), "extractor_2"⟩ := by
  have h := (extract_first_accept (str ("https://example.com/page"))
      [none, some ⟨str ("Example Title"), str ("icon")⟩]).2
    [none] ⟨str ("Example Title"), str ("icon")⟩ [] rfl (by decide)
    (by
      intro o ho
      rcases List.mem_singleton.mp ho with rfl
      rintro ⟨r, hr, -⟩
      exact Option.noConfusion hr)
  simpa using h

/-! ## C5: the retry wrapper -/

/-- Splitting off the head of a geometric delay sequence. -/
theorem geomDelays (d : Rat) (k : Nat) :
    (List.range (k + 1)).map (fun i => d * (3 / 2 : Rat) ^ i) =
      d :: (List.range k).map (fun i => (d * (3 / 2)) * (3 / 2 : Rat) ^ i) := by
  have h1 : ∀ i : Nat, d * (3 / 2 : Rat) ^ (i + 1) = (d * (3 / 2)) * (3 / 2 : Rat) ^ i := by
    intro i
    rw [pow_succ]
    ring
  simp only [List.range_succ_eq_map, List.map_cons, List.map_map, Function.comp, pow_zero,
    mul_one]
  exact congrArg _ (List.map_congr_left (fun i _ => h1 i))

/-- The behaviour of `withRetry`: between 1 and `retries + 1` invocations,
geometric 1.5-factor backoff between consecutive attempts, and on
exhaustion the final outcome is the failure of the last invocation. -/
theorem withRetry_behaviour {ε α : Type} (fn : Nat → Except ε α) :
    ∀ (retries : Nat) (delay : Rat) (a : Nat),
      1 ≤ (withRetry fn retries delay a).2.1 ∧
      (withRetry fn retries delay a).2.1 ≤ retries + 1 ∧
      (withRetry fn retries delay a).2.2 =
        (List.range ((withRetry fn retries delay a).2.1 - 1)).map
          (fun i => delay * (3 / 2 : Rat) ^ i) ∧
      (∀ e, (withRetry fn retries delay a).1 = .error e →
        (withRetry fn retries delay a).2.1 = retries + 1 ∧ fn (a + retries) = .error e) := by
  intro retries
  induction retries with
  | zero =>
    intro delay a
    rw [withRetry.eq_def]
    cases hfa : fn a with
    | ok v =>
      simp [hfa]
    | error e0 =>
      simp [hfa]
  | succ r ih =>
    intro delay a
    rw [withRetry.eq_def]
    cases hfa : fn a with
    | ok v =>
      simp [hfa]
    | error e0 =>
      have iht := ih (delay * (3 / 2)) (a + 1)
      simp only [hfa]
      refine ⟨by omega, by omega, ?_, ?_⟩
      · have hk : (withRetry fn r (delay * (3 / 2)) (a + 1)).2.1 - 1 + 1 =
            (withRetry fn r (delay * (3 / 2)) (a + 1)).2.1 := by omega
        rw [Nat.add_sub_cancel, ← hk, geomDelays, ← iht.2.2.1]
      · intro e he
        have h3 := iht.2.2.2 e he
        refine ⟨by omega, ?_⟩
        have : a + (r + 1) = a + 1 + r := by omega
        rw [this]
        exact h3.2

/-- C5 counterexample: with the configured `MAX_RETRIES = 3` passed to
`withRetry`, an always-failing operation is invoked 4 times, not at most
3 as the claim states. -/
theorem withRetry_cex :
    (withRetry constFail MAX_RETRIES RETRY_DELAY 0).2.1 = 4 ∧
    ¬ ((withRetry constFail MAX_RETRIES RETRY_DELAY 0).2.1 ≤ MAX_RETRIES) := by
  decide

/-- C5 (amended): `withRetry` invokes the operation at most
`maxAttempts + 1` times (the initial attempt plus up to `maxAttempts`
retries), waits between consecutive attempts with the delay multiplied by
the factor 1.5 each time, and on exhaustion propagates the failure of the
last invocation to its caller. -/
theorem withRetry_props {ε α : Type} (fn : Nat → Except ε α) (retries : Nat)
    (delay : Rat) (a : Nat) :
    (withRetry fn retries delay a).2.1 ≤ retries + 1 ∧
    (withRetry fn retries delay a).2.2 =
      (List.range ((withRetry fn retries delay a).2.1 - 1)).map
        (fun i => delay * (3 / 2 : Rat) ^ i) ∧
    (∀ e, (withRetry fn retries delay a).1 = .error e →
      (withRetry fn retries delay a).2.1 = retries + 1 ∧ fn (a + retries) = .error e) :=
  ⟨(withRetry_behaviour fn retries delay a).2.1,
   (withRetry_behaviour fn retries delay a).2.2.1,
   (withRetry_behaviour fn retries delay a).2.2.2⟩

/-- Witness for C5 (amended), at the always-failing operation with 2
retries and initial delay 8: at most 3 invocations, and exhaustion
reports the failure of invocation number 2 (0-based). -/
theorem withRetry_props_witness :
    (withRetry constFail 2 8 0).2.1 ≤ 3 ∧ constFail (0 + 2) = .error () := by
  have h := withRetry_props constFail 2 8 0
  exact ⟨h.1, (h.2.2 () (by rfl)).2⟩

/-! ## Tag normalizer lemmas (C1, C8) -/

/-- Lower-casing a code unit is idempotent. -/
theorem lowerCU_idem (n : Nat) : lowerCU (lowerCU n) = lowerCU n := by
  by_cases h : 65 ≤ n ∧ n ≤ 90
  · have h1 : lowerCU n = n + 32 := by unfold lowerCU; exact if_pos h
    rw [h1]
    unfold lowerCU
    rw [if_neg (by omega)]
  · have h1 : lowerCU n = n := by unfold lowerCU; exact if_neg h
    rw [h1]
    exact h1

/-- Lower-casing preserves whitespace-ness. -/
theorem isJsWs_lowerCU (n : Nat) : isJsWs (lowerCU n) = isJsWs n := by
  by_cases h : 65 ≤ n ∧ n ≤ 90
  · have h1 : lowerCU n = n + 32 := by unfold lowerCU; exact if_pos h
    rw [h1]
    unfold isJsWs
    rw [decide_eq_decide]
    omega
  · have h1 : lowerCU n = n := by unfold lowerCU; exact if_neg h
    rw [h1]

/-- `toLowerCase` is idempotent. -/
theorem jsToLower_idem (l : Str) : jsToLower (jsToLower l) = jsToLower l := by
  unfold jsToLower
  rw [List.map_map]
  exact List.map_congr_left (fun a _ => lowerCU_idem a)

/-- Dropping a prefix by the same predicate twice is the same as once. -/
theorem dropWhile_idem (p : Nat → Bool) (l : Str) :
    (l.dropWhile p).dropWhile p = l.dropWhile p := by
  cases hd : l.dropWhile p with
  | nil => rfl
  | cons c cs =>
    have hh := List.head?_dropWhile_not p l
    rw [hd] at hh
    have hc : p c = false := hh
    rw [List.dropWhile_cons, hc]
    simp

/-- Stripping trailing whitespace is idempotent. -/
theorem dropTrailingWs_idem (l : Str) : dropTrailingWs (dropTrailingWs l) = dropTrailingWs l := by
  unfold dropTrailingWs
  rw [List.reverse_reverse, dropWhile_idem]

/-- Stripping trailing whitespace yields a prefix. -/
theorem dropTrailingWs_prefix (l : Str) : dropTrailingWs l <+: l := by
  unfold dropTrailingWs
  conv_rhs => rw [← List.reverse_reverse l]
  exact List.reverse_prefix.mpr (List.dropWhile_suffix isJsWs)

/-- `trim` is idempotent. -/
theorem jsTrim_idem (l : Str) : jsTrim (jsTrim l) = jsTrim l := by
  unfold jsTrim
  have hdw : (dropTrailingWs (l.dropWhile isJsWs)).dropWhile isJsWs =
      dropTrailingWs (l.dropWhile isJsWs) := by
    cases ht : dropTrailingWs (l.dropWhile isJsWs) with
    | nil => rfl
    | cons c cs =>
      have hpre : dropTrailingWs (l.dropWhile isJsWs) <+: l.dropWhile isJsWs :=
        dropTrailingWs_prefix _
      rw [ht] at hpre
      rcases hpre with ⟨t, hteq⟩
      have hcy : (l.dropWhile isJsWs).head? = some c := by
        rw [← hteq, List.cons_append]
        rfl
      have hh := List.head?_dropWhile_not isJsWs l
      rw [hcy] at hh
      have hc : isJsWs c = false := hh
      rw [List.dropWhile_cons, hc]
      simp
  rw [hdw, dropTrailingWs_idem]

/-- Leading-whitespace stripping commutes with lower-casing. -/
theorem dropWhile_isJsWs_map_lowerCU (l : Str) :
    (l.map lowerCU).dropWhile isJsWs = (l.dropWhile isJsWs).map lowerCU := by
  rw [List.dropWhile_map]
  have hfn : (isJsWs ∘ lowerCU) = isJsWs := funext isJsWs_lowerCU
  rw [hfn]

/-- Trailing-whitespace stripping commutes with lower-casing. -/
theorem dropTrailingWs_map_lowerCU (l : Str) :
    dropTrailingWs (l.map lowerCU) = (dropTrailingWs l).map lowerCU := by
  unfold dropTrailingWs
  rw [← List.map_reverse, dropWhile_isJsWs_map_lowerCU, List.map_reverse]

/-- `trim` commutes with lower-casing. -/
theorem jsTrim_map_lowerCU (l : Str) :
    jsTrim (l.map lowerCU) = (jsTrim l).map lowerCU := by
  unfold jsTrim
  rw [dropWhile_isJsWs_map_lowerCU, dropTrailingWs_map_lowerCU]

/-- One-tag normalization (`trim` then `toLowerCase`) is idempotent. -/
theorem normalizeTag_idem (t : Str) : normalizeTag (normalizeTag t) = normalizeTag t := by
  show normalizeTag (jsToLower (jsTrim t)) = jsToLower (jsTrim t)
  unfold normalizeTag jsToLower
  rw [jsTrim_map_lowerCU, jsTrim_idem, List.map_map]
  exact List.map_congr_left (fun a _ => lowerCU_idem a)

/-- Elements of the deduplicated list come from the input. -/
theorem mem_of_mem_dedupFirstAux {x : Str} :
    ∀ {seen l : List Str}, x ∈ dedupFirstAux seen l → x ∈ l := by
  intro seen l
  induction l generalizing seen with
  | nil => intro h; exact absurd h (List.not_mem_nil x)
  | cons y ys ih =>
    intro h
    unfold dedupFirstAux at h
    by_cases hy : y ∈ seen
    · rw [if_pos hy] at h
      exact List.mem_cons_of_mem _ (ih h)
    · rw [if_neg hy] at h
      rcases List.mem_cons.mp h with rfl | h2
      · exact List.mem_cons_self _ _
      · exact List.mem_cons_of_mem _ (ih h2)

/-- Deduplication yields a sublist (order preserved, elements kept). -/
theorem dedupFirstAux_sublist : ∀ (seen l : List Str), (dedupFirstAux seen l).Sublist l := by
  intro seen l
  induction l generalizing seen with
  | nil => exact List.Sublist.refl _
  | cons y ys ih =>
    unfold dedupFirstAux
    by_cases hy : y ∈ seen
    · rw [if_pos hy]
      exact (ih seen).cons y
    · rw [if_neg hy]
      exact (ih (y :: seen)).cons₂ y

/-- Deduplication produces no duplicates and nothing from `seen`. -/
theorem nodup_dedupFirstAux :
    ∀ (l : List Str) (seen), (dedupFirstAux seen l).Nodup ∧
      ∀ x ∈ dedupFirstAux seen l, x ∉ seen := by
  intro l
  induction l with
  | nil =>
    intro seen
    exact ⟨List.nodup_nil, fun x hx => absurd hx (List.not_mem_nil x)⟩
  | cons y ys ih =>
    intro seen
    unfold dedupFirstAux
    by_cases hy : y ∈ seen
    · rw [if_pos hy]
      exact ih seen
    · rw [if_neg hy]
      obtain ⟨hnd, hmem⟩ := ih (y :: seen)
      refine ⟨List.nodup_cons.mpr ⟨?_, hnd⟩, ?_⟩
      · intro hyin
        exact hmem y hyin (List.mem_cons_self _ _)
      · intro x hx
        rcases List.mem_cons.mp hx with rfl | h2
        · exact hy
        · intro hxseen
          exact hmem x h2 (List.mem_cons_of_mem _ hxseen)

/-- Deduplicating an already duplicate-free list (disjoint from `seen`)
changes nothing. -/
theorem dedupFirstAux_eq_self :
    ∀ (l : List Str), l.Nodup → ∀ seen, (∀ x ∈ l, x ∉ seen) →
      dedupFirstAux seen l = l := by
  intro l
  induction l with
  | nil => intro _ seen _; rfl
  | cons y ys ih =>
    intro hnd seen hdisj
    unfold dedupFirstAux
    rw [if_neg (hdisj y (List.mem_cons_self _ _))]
    congr 1
    refine ih (List.nodup_cons.mp hnd).2 (y :: seen) ?_
    intro x hx hmem
    rcases List.mem_cons.mp hmem with rfl | h2
    · exact (List.nodup_cons.mp hnd).1 hx
    · exact hdisj x (List.mem_cons_of_mem _ hx) h2

/-- The processed tag list is a sublist of the normalized input. -/
theorem processAndValidateTags_sublist (tags : List Str) :
    (processAndValidateTags tags).Sublist (tags.map normalizeTag) := by
  unfold processAndValidateTags
  refine List.Sublist.trans (List.take_sublist _ _) ?_
  refine List.Sublist.trans (dedupFirstAux_sublist _ _) ?_
  exact List.Sublist.trans (List.filter_sublist _) (List.filter_sublist _)

/-- The clean tag list is a sublist of the normalized input. -/
theorem cleanTags_sublist (tags : List Str) :
    (cleanTags tags).Sublist (tags.map normalizeTag) := by
  unfold cleanTags
  refine List.Sublist.trans (List.take_sublist _ _) ?_
  exact List.Sublist.trans (dedupFirstAux_sublist _ _) (List.filter_sublist _)

/-- Every processed tag is a normalized input tag that passed both
filters. -/
theorem mem_processAndValidateTags {tags : List Str} {t : Str}
    (h : t ∈ processAndValidateTags tags) :
    (∃ x ∈ tags, t = normalizeTag x) ∧ 0 < t.length ∧ t.length ≤ 30 ∧
      tagPatternOk t = true := by
  unfold processAndValidateTags at h
  have h1 := List.mem_of_mem_take h
  have h2 := mem_of_mem_dedupFirstAux h1
  have h3 := List.mem_filter.mp h2
  have h4 := List.mem_filter.mp h3.1
  obtain ⟨hmap, hcond⟩ := h4
  simp only [Bool.and_eq_true, decide_eq_true_eq] at hcond
  rcases List.mem_map.mp hmap with ⟨x, hx, hxt⟩
  exact ⟨⟨x, hx, hxt.symm⟩, hcond.1, hcond.2, h3.2⟩

/-- Every clean tag is a normalized input tag that passed the length
filter. -/
theorem mem_cleanTags {tags : List Str} {t : Str} (h : t ∈ cleanTags tags) :
    (∃ x ∈ tags, t = normalizeTag x) ∧ 0 < t.length ∧ t.length ≤ 50 := by
  unfold cleanTags at h
  have h1 := List.mem_of_mem_take h
  have h2 := mem_of_mem_dedupFirstAux h1
  have h3 := List.mem_filter.mp h2
  obtain ⟨hmap, hcond⟩ := h3
  simp only [Bool.and_eq_true, decide_eq_true_eq] at hcond
  rcases List.mem_map.mp hmap with ⟨x, hx, hxt⟩
  exact ⟨⟨x, hx, hxt.symm⟩, hcond.1, hcond.2⟩

/-- The processed tag list has no duplicates. -/
theorem processAndValidateTags_nodup (tags : List Str) :
    (processAndValidateTags tags).Nodup := by
  unfold processAndValidateTags
  exact (nodup_dedupFirstAux _ _).1.sublist (List.take_sublist _ _)

/-- The clean tag list has no duplicates. -/
theorem cleanTags_nodup (tags : List Str) : (cleanTags tags).Nodup := by
  unfold cleanTags
  exact (nodup_dedupFirstAux _ _).1.sublist (List.take_sublist _ _)

/-- The processed tag list has at most 15 entries. -/
theorem processAndValidateTags_length_le (tags : List Str) :
    (processAndValidateTags tags).length ≤ 15 := by
  unfold processAndValidateTags
  exact List.length_take_le _ _

/-- The clean tag list has at most 10 entries. -/
theorem cleanTags_length_le (tags : List Str) : (cleanTags tags).length ≤ 10 := by
  unfold cleanTags
  exact List.length_take_le _ _

/-- A list of already-normalized, filter-passing, duplicate-free tags of
length at most 15 is a fixed point of `processAndValidateTags`. -/
theorem processAndValidateTags_eq_self (y : List Str)
    (hfix : ∀ t ∈ y, normalizeTag t = t)
    (hlen30 : ∀ t ∈ y, 0 < t.length ∧ t.length ≤ 30)
    (hpat : ∀ t ∈ y, tagPatternOk t = true)
    (hnd : y.Nodup) (hlen : y.length ≤ 15) :
    processAndValidateTags y = y := by
  unfold processAndValidateTags
  have hmap : y.map normalizeTag = y := by
    rw [List.map_congr_left hfix, List.map_id']
  rw [hmap]
  have hf1 : y.filter (fun tag => decide (0 < tag.length) && decide (tag.length ≤ 30)) = y := by
    rw [List.filter_eq_self]
    intro a ha
    simp only [Bool.and_eq_true, decide_eq_true_eq]
    exact hlen30 a ha
  rw [hf1]
  have hf2 : y.filter tagPatternOk = y := by
    rw [List.filter_eq_self]
    exact hpat
  rw [hf2]
  unfold dedupFirst
  rw [dedupFirstAux_eq_self y hnd [] (fun x _ hmem => absurd hmem (List.not_mem_nil x))]
  exact List.take_of_length_le hlen

/-- A list of already-normalized, filter-passing, duplicate-free tags of
length at most 10 is a fixed point of `cleanTags`. -/
theorem cleanTags_eq_self (y : List Str)
    (hfix : ∀ t ∈ y, normalizeTag t = t)
    (hlen50 : ∀ t ∈ y, 0 < t.length ∧ t.length ≤ 50)
    (hnd : y.Nodup) (hlen : y.length ≤ 10) :
    cleanTags y = y := by
  unfold cleanTags
  have hmap : y.map normalizeTag = y := by
    rw [List.map_congr_left hfix, List.map_id']
  rw [hmap]
  have hf1 : y.filter (fun tag => decide (0 < tag.length) && decide (tag.length ≤ 50)) = y := by
    rw [List.filter_eq_self]
    intro a ha
    simp only [Bool.and_eq_true, decide_eq_true_eq]
    exact hlen50 a ha
  rw [hf1]
  unfold dedupFirst
  rw [dedupFirstAux_eq_self y hnd [] (fun x _ hmem => absurd hmem (List.not_mem_nil x))]
  exact List.take_of_length_le hlen

/-! ## C1: guarantees of the tag normalizer output -/

/-- C1 counterexample: `cleanTags` applies no character-pattern filter, so
the tag `a!` (exclamation mark 33 fails the alphanumeric/space/
hyphen/underscore pattern) survives normalization, contradicting the
claim that no output entry fails the pattern. -/
theorem tags_normalizer_cex :
    cleanTags [str ("a!")] = [str ("a!")] ∧ tagPatternOk (str ("a!")) = false := by
  decide

/-- C1 (amended): `processAndValidateTags` output has no duplicates, no
entry longer than its cap 30, no entry failing the character pattern, at
most its cap 15 entries, and is a sublist of the trimmed lower-cased
input (first-seen order preserved); `cleanTags` satisfies the same with
caps 50 and 10 except that it does not enforce the character pattern. -/
theorem tags_normalizer_props (tags : List Str) :
    (processAndValidateTags tags).Nodup ∧
    (processAndValidateTags tags).length ≤ 15 ∧
    (processAndValidateTags tags).Sublist (tags.map normalizeTag) ∧
    (∀ t ∈ processAndValidateTags tags,
      0 < t.length ∧ t.length ≤ 30 ∧ tagPatternOk t = true) ∧
    (cleanTags tags).Nodup ∧
    (cleanTags tags).length ≤ 10 ∧
    (cleanTags tags).Sublist (tags.map normalizeTag) ∧
    (∀ t ∈ cleanTags tags, 0 < t.length ∧ t.length ≤ 50) :=
  ⟨processAndValidateTags_nodup tags, processAndValidateTags_length_le tags,
   processAndValidateTags_sublist tags,
   fun t ht => (mem_processAndValidateTags ht).2,
   cleanTags_nodup tags, cleanTags_length_le tags, cleanTags_sublist tags,
   fun t ht => (mem_cleanTags ht).2⟩

/-- Witness for C1 (amended) at the scenario input
`["Work", "work", " TODO "]`: the entry `work` of the output satisfies
the guarantees. -/
theorem tags_normalizer_props_witness :
    0 < (str ("work")).length ∧ (str ("work")).length ≤ 30 ∧
      tagPatternOk (str ("work")) = true :=
  (tags_normalizer_props [str ("Work"), str ("work"), str (" TODO ")]).2.2.2.1
    (str ("work")) (by decide)

/-! ## C8: idempotence of tag normalization -/

/-- C8: both tag normalizers are idempotent: normalizing a tag list twice
yields exactly the list obtained by normalizing it once. -/
theorem tags_normalizer_idempotent (tags : List Str) :
    processAndValidateTags (processAndValidateTags tags) = processAndValidateTags tags ∧
    cleanTags (cleanTags tags) = cleanTags tags := by
  constructor
  · refine processAndValidateTags_eq_self _ ?_ ?_ ?_
      (processAndValidateTags_nodup tags) (processAndValidateTags_length_le tags)
    · intro t ht
      rcases (mem_processAndValidateTags ht).1 with ⟨x, -, rfl⟩
      exact normalizeTag_idem x
    · intro t ht
      exact ⟨(mem_processAndValidateTags ht).2.1, (mem_processAndValidateTags ht).2.2.1⟩
    · intro t ht
      exact (mem_processAndValidateTags ht).2.2.2
  · refine cleanTags_eq_self _ ?_ ?_ (cleanTags_nodup tags) (cleanTags_length_le tags)
    · intro t ht
      rcases (mem_cleanTags ht).1 with ⟨x, -, rfl⟩
      exact normalizeTag_idem x
    · intro t ht
      exact (mem_cleanTags ht).2

/-! ## C2: monotone position assignment -/

/-- `listMax?` is `none` exactly on the empty list. -/
theorem listMax?_eq_none_iff (l : List Int) : listMax? l = none ↔ l = [] := by
  cases l with
  | nil => simp [listMax?]
  | cons x xs =>
    simp only [listMax?]
    cases listMax? xs <;> simp

/-- Every element is bounded by `listMax?`. -/
theorem le_of_mem_listMax? :
    ∀ (l : List Int) (m : Int), listMax? l = some m → ∀ x ∈ l, x ≤ m := by
  intro l
  induction l with
  | nil => intro m _ x hx; exact absurd hx (List.not_mem_nil x)
  | cons y ys ih =>
    intro m hm x hx
    simp only [listMax?] at hm
    cases hys : listMax? ys with
    | none =>
      rw [hys] at hm
      have hempty : ys = [] := (listMax?_eq_none_iff ys).mp hys
      subst hempty
      rcases List.mem_cons.mp hx with rfl | h2
      · exact le_of_eq (Option.some.inj hm)
      · exact absurd h2 (List.not_mem_nil x)
    | some my =>
      rw [hys] at hm
      have hm' : m = max y my := (Option.some.inj hm).symm
      rcases List.mem_cons.mp hx with rfl | h2
      · rw [hm']; exact le_max_left _ _
      · rw [hm']; exact le_trans (ih my hys x h2) (le_max_right _ _)

/-- `listMax?` over a list extended on the right by one element. -/
theorem listMax?_append_single (l : List Int) (x : Int) :
    listMax? (l ++ [x]) =
      some (match listMax? l with | none => x | some m => max m x) := by
  induction l with
  | nil => simp [listMax?]
  | cons y ys ih =>
    cases hys : listMax? ys with
    | none =>
      have hempty : ys = [] := (listMax?_eq_none_iff ys).mp hys
      subst hempty
      simp [listMax?]
    | some my =>
      have h1 : listMax? (y :: ys) = some (max y my) := by
        show (match listMax? ys with | none => some y | some m => some (max y m)) = _
        rw [hys]
      have h2 : listMax? (ys ++ [x]) = some (max my x) := by
        rw [ih, hys]
      have h3 : listMax? ((y :: ys) ++ [x]) = some (max y (max my x)) := by
        rw [List.cons_append]
        show (match listMax? (ys ++ [x]) with | none => some y | some m => some (max y m)) = _
        rw [h2]
      rw [h3, h1]
      show some (max y (max my x)) = some (max (max y my) x)
      rw [max_assoc]

/-- Positions of an owner after appending one of the owner's rows. -/
theorem userPositions_append_own (u : Str) (s : List StoredBookmark)
    (b : StoredBookmark) (hb : b.user_id = u) :
    userPositions u (s ++ [b]) = userPositions u s ++ [b.position] := by
  unfold userPositions
  rw [List.filter_append]
  simp [List.filter_cons, hb]

/-- The position assigned by a successful create. -/
theorem createBookmark_position (u : Str) (inp : BookmarkInput)
    (s : List StoredBookmark) :
    (createBookmark u inp true s).1.position = getMaxPosition u s + 1 := by
  unfold createBookmark
  simp

/-- The store after a create is the old store plus the new row. -/
theorem createBookmark_store (u : Str) (inp : BookmarkInput)
    (s : List StoredBookmark) :
    (createBookmark u inp true s).2 = s ++ [(createBookmark u inp true s).1] := rfl

/-- The new row belongs to the owner. -/
theorem createBookmark_user (u : Str) (inp : BookmarkInput)
    (s : List StoredBookmark) : (createBookmark u inp true s).1.user_id = u := rfl

/-- After a successful create, the owner's maximum position is exactly the
new bookmark's position, one above the previous maximum. -/
theorem getMaxPosition_after_create (u : Str) (inp : BookmarkInput)
    (s : List StoredBookmark) :
    getMaxPosition u (createBookmark u inp true s).2 = getMaxPosition u s + 1 := by
  rw [← createBookmark_position u inp s]
  rw [createBookmark_store]
  unfold getMaxPosition
  rw [userPositions_append_own u s _ (createBookmark_user u inp s),
    listMax?_append_single]
  cases hmax : listMax? (userPositions u s) with
  | none => rfl
  | some m =>
    have hm : getMaxPosition u s = m := by
      unfold getMaxPosition
      rw [hmax]
      rfl
    have hP : (createBookmark u inp true s).1.position = m + 1 := by
      rw [createBookmark_position, hm]
    show max m ((createBookmark u inp true s).1.position) =
      (createBookmark u inp true s).1.position
    rw [hP]
    omega

/-- Every bookmark created in a sequence has a position strictly above the
initial maximum for the owner. -/
theorem createSeq_position_gt (u : Str) :
    ∀ (inps : List BookmarkInput) (s : List StoredBookmark),
      ∀ p ∈ createSeq u inps s, getMaxPosition u s < p.1.position := by
  intro inps
  induction inps with
  | nil => intro s p hp; exact absurd hp (List.not_mem_nil p)
  | cons inp rest ih =>
    intro s p hp
    rcases List.mem_cons.mp hp with rfl | h2
    · show getMaxPosition u s < (createBookmark u inp true s).1.position
      rw [createBookmark_position]
      omega
    · have h3 := ih (createBookmark u inp true s).2 p h2
      rw [getMaxPosition_after_create] at h3
      omega

/-- C2: in a sequence of bookmark creations by the same owner with no
concurrent writers (and successful max-position reads), every created
bookmark's position equals the owner's maximum position at the time of
its create plus one, and the created positions are strictly increasing
across the sequence. -/
theorem createSeq_position_monotone (u : Str) (inps : List BookmarkInput)
    (s : List StoredBookmark) :
    (∀ p ∈ createSeq u inps s, p.1.position = getMaxPosition u p.2 + 1) ∧
    List.Chain' (fun a b => a.1.position < b.1.position) (createSeq u inps s) := by
  constructor
  · induction inps generalizing s with
    | nil => intro p hp; exact absurd hp (List.not_mem_nil p)
    | cons inp rest ih =>
      intro p hp
      rcases List.mem_cons.mp hp with rfl | h2
      · exact createBookmark_position u inp s
      · exact ih (createBookmark u inp true s).2 p h2
  · induction inps generalizing s with
    | nil => exact List.chain'_nil
    | cons inp rest ih =>
      rw [createSeq, List.chain'_cons']
      refine ⟨?_, ih (createBookmark u inp true s).2⟩
      intro y hy
      have hymem : y ∈ createSeq u rest (createBookmark u inp true s).2 :=
        List.mem_of_mem_head? hy
      have h3 := createSeq_position_gt u rest _ y hymem
      rw [getMaxPosition_after_create] at h3
      show (createBookmark u inp true s).1.position < y.1.position
      rw [createBookmark_position]
      omega

/-- Witness for C2: two creations starting from the empty store. -/
theorem createSeq_position_monotone_witness :
    List.Chain' (fun a b => a.1.position < b.1.position)
      (createSeq (str ("u1"))
        [⟨str ("https://a.b/one"), []⟩, ⟨str ("https://a.b/two"), []⟩] []) :=
  (createSeq_position_monotone (str ("u1"))
    [⟨str ("https://a.b/one"), []⟩, ⟨str ("https://a.b/two"), []⟩] []).2

/-! ## C9: search ranking is a sorted permutation -/

/-- C9: `rankSearchResults` returns a permutation of its input bookmark
records (nothing dropped or duplicated, and the returned elements are the
input records themselves: the internal score pairing is dropped before
returning), ordered by non-increasing relevance score. -/
theorem rankSearchResults_perm_sorted (bs : List RankedBookmark) (q : Str) (now : Rat) :
    (rankSearchResults bs q now).Perm bs ∧
    List.Pairwise
      (fun a b => calculateRelevanceScore b (jsToLower q) now ≤
        calculateRelevanceScore a (jsToLower q) now)
      (rankSearchResults bs q now) := by
  have hperm : ((bs.map (fun b => (b, calculateRelevanceScore b (jsToLower q) now))).mergeSort
        (fun a b => decide (b.2 ≤ a.2))).Perm
      (bs.map (fun b => (b, calculateRelevanceScore b (jsToLower q) now))) :=
    List.mergeSort_perm _ _
  have hmem : ∀ p ∈ (bs.map (fun b => (b, calculateRelevanceScore b (jsToLower q) now))).mergeSort
      (fun a b => decide (b.2 ≤ a.2)),
      p.2 = calculateRelevanceScore p.1 (jsToLower q) now := by
    intro p hp
    have hin := hperm.mem_iff.mp hp
    rcases List.mem_map.mp hin with ⟨b, -, rfl⟩
    rfl
  constructor
  · show (((bs.map (fun b => (b, calculateRelevanceScore b (jsToLower q) now))).mergeSort
        (fun a b => decide (b.2 ≤ a.2))).map (fun p => p.1)).Perm bs
    have h1 := hperm.map (fun p : RankedBookmark × Rat => p.1)
    rw [List.map_map] at h1
    have h2 : bs.map ((fun p : RankedBookmark × Rat => p.1) ∘
        (fun b => (b, calculateRelevanceScore b (jsToLower q) now))) = bs := by
      show bs.map (fun b => b) = bs
      exact List.map_id' bs
    rw [h2] at h1
    exact h1
  · have htrans : ∀ a b c : RankedBookmark × Rat,
        (fun a b : RankedBookmark × Rat => decide (b.2 ≤ a.2)) a b →
        (fun a b : RankedBookmark × Rat => decide (b.2 ≤ a.2)) b c →
        (fun a b : RankedBookmark × Rat => decide (b.2 ≤ a.2)) a c := by
      intro a b c hab hbc
      simp only [decide_eq_true_eq] at hab hbc ⊢
      exact le_trans hbc hab
    have htotal : ∀ a b : RankedBookmark × Rat,
        ((fun a b : RankedBookmark × Rat => decide (b.2 ≤ a.2)) a b ||
         (fun a b : RankedBookmark × Rat => decide (b.2 ≤ a.2)) b a) = true := by
      intro a b
      rcases le_total a.2 b.2 with h | h <;> simp [h]
    have hsorted := List.sorted_mergeSort htrans htotal
      (bs.map (fun b => (b, calculateRelevanceScore b (jsToLower q) now)))
    have hpw : List.Pairwise
        (fun a b : RankedBookmark × Rat =>
          calculateRelevanceScore b.1 (jsToLower q) now ≤
            calculateRelevanceScore a.1 (jsToLower q) now)
        ((bs.map (fun b => (b, calculateRelevanceScore b (jsToLower q) now))).mergeSort
          (fun a b => decide (b.2 ≤ a.2))) := by
      refine hsorted.imp_of_mem ?_
      intro a b ha hb hab
      have ha2 := hmem a ha
      have hb2 := hmem b hb
      simp only [decide_eq_true_eq] at hab
      rw [← ha2, ← hb2]
      exact hab
    show List.Pairwise _
      (((bs.map (fun b => (b, calculateRelevanceScore b (jsToLower q) now))).mergeSort
        (fun a b => decide (b.2 ≤ a.2))).map (fun p => p.1))
    rw [List.pairwise_map]
    exact hpw

/-! ## C7: summary post-processing -/

/-- C7 counterexample: a 501-character summary is truncated to 500
characters by `enhanceSummary` but no ellipsis is appended (the claim
says a trailing ellipsis is appended whenever the text was truncated). -/
theorem enhanceSummary_cex :
    (List.replicate 501 97 : Str).length = 501 ∧
    (enhanceSummary (List.replicate 501 97)).length = 500 ∧
    ¬ ((str ("...")).IsSuffix (enhanceSummary (List.replicate 501 97))) := by
  refine ⟨by simp, by decide, ?_⟩
  decide

/-- C7 (amended): `enhanceSummary` applies, in order, whitespace
collapsing, lead-in stripping, filler removal and trimming, then
truncates to at most 500 characters; the truncation appends nothing (no
ellipsis), so the result is a prefix of the processed text, equal to it
whenever that text is within the cap. -/
theorem enhanceSummary_props (s : Str) :
    (enhanceSummary s).length ≤ 500 ∧
    (enhanceSummary s).IsPrefix (jsTrim (removeFiller (stripLead (collapseWs s)))) ∧
    ((jsTrim (removeFiller (stripLead (collapseWs s)))).length ≤ 500 →
      enhanceSummary s = jsTrim (removeFiller (stripLead (collapseWs s)))) := by
  refine ⟨?_, ?_, ?_⟩
  · show ((jsTrim (removeFiller (stripLead (collapseWs s)))).take 500).length ≤ 500
    exact List.length_take_le _ _
  · exact List.take_prefix _ _
  · intro h
    exact List.take_of_length_le h

/-- Witness for C7 (amended): a short summary is returned whole. -/
theorem enhanceSummary_props_witness :
    enhanceSummary (str ("  Hello   world  ")) =
      jsTrim (removeFiller (stripLead (collapseWs (str ("  Hello   world  "))))) :=
  (enhanceSummary_props (str ("  Hello   world  "))).2.2 (by decide)

/-! ## C6: URL normalization lemmas -/

/-- `splitSep` never returns the empty list of parts. -/
theorem splitSep_ne_nil (a : Nat) (l : Str) : splitSep a l ≠ [] := by
  cases l with
  | nil => simp [splitSep]
  | cons c cs =>
    unfold splitSep
    by_cases hc : c = a
    · simp [hc]
    · simp only [if_neg hc]
      cases splitSep a cs <;> simp

/-- The separator never occurs inside a part. -/
theorem not_mem_of_mem_splitSep {a : Nat} :
    ∀ {l seg : Str}, seg ∈ splitSep a l → a ∉ seg := by
  intro l
  induction l with
  | nil =>
    intro seg hseg
    unfold splitSep at hseg
    rcases List.mem_singleton.mp hseg with rfl
    exact List.not_mem_nil a
  | cons c cs ih =>
    intro seg hseg
    unfold splitSep at hseg
    by_cases hc : c = a
    · rw [if_pos hc] at hseg
      rcases List.mem_cons.mp hseg with rfl | h2
      · exact List.not_mem_nil a
      · exact ih h2
    · rw [if_neg hc] at hseg
      cases hr : splitSep a cs with
      | nil => exact absurd hr (splitSep_ne_nil a cs)
      | cons s ss =>
        rw [hr] at hseg
        rcases List.mem_cons.mp hseg with rfl | h2
        · intro hmem
          rcases List.mem_cons.mp hmem with rfl | h3
          · exact hc rfl
          · exact ih (hr ▸ List.mem_cons_self s ss) h3
        · exact ih (hr ▸ List.mem_cons_of_mem s h2)

/-- Characters of parts are characters of the split string. -/
theorem mem_of_mem_splitSep {a c : Nat} :
    ∀ {l seg : Str}, seg ∈ splitSep a l → c ∈ seg → c ∈ l := by
  intro l
  induction l with
  | nil =>
    intro seg hseg hc
    unfold splitSep at hseg
    rcases List.mem_singleton.mp hseg with rfl
    exact absurd hc (List.not_mem_nil c)
  | cons d ds ih =>
    intro seg hseg hc
    unfold splitSep at hseg
    by_cases hd : d = a
    · rw [if_pos hd] at hseg
      rcases List.mem_cons.mp hseg with rfl | h2
      · exact absurd hc (List.not_mem_nil c)
      · exact List.mem_cons_of_mem _ (ih h2 hc)
    · rw [if_neg hd] at hseg
      cases hr : splitSep a ds with
      | nil => exact absurd hr (splitSep_ne_nil a ds)
      | cons s ss =>
        rw [hr] at hseg
        rcases List.mem_cons.mp hseg with rfl | h2
        · rcases List.mem_cons.mp hc with rfl | h3
          · exact List.mem_cons_self _ _
          · exact List.mem_cons_of_mem _ (ih (hr ▸ List.mem_cons_self s ss) h3)
        · exact List.mem_cons_of_mem _ (ih (hr ▸ List.mem_cons_of_mem s h2) hc)

/-- Splitting a string that contains no separator yields one part. -/
theorem splitSep_no_sep (a : Nat) :
    ∀ (l : Str), a ∉ l → splitSep a l = [l] := by
  intro l
  induction l with
  | nil => intro _; rfl
  | cons c cs ih =>
    intro h
    unfold splitSep
    have hc : ¬ (c = a) := fun heq => h (heq ▸ List.mem_cons_self _ _)
    rw [if_neg hc, ih (fun hmem => h (List.mem_cons_of_mem _ hmem))]

/-- Splitting a string built from a separator-free part, the separator and
a tail. -/
theorem splitSep_append_sep (a : Nat) :
    ∀ (s t : Str), a ∉ s → splitSep a (s ++ a :: t) = s :: splitSep a t := by
  intro s
  induction s with
  | nil =>
    intro t _
    show splitSep a (a :: t) = [] :: splitSep a t
    conv_lhs => unfold splitSep
    rw [if_pos rfl]
  | cons c cs ih =>
    intro t h
    have hc : ¬ (c = a) := fun heq => h (heq ▸ List.mem_cons_self _ _)
    show splitSep a (c :: (cs ++ a :: t)) = (c :: cs) :: splitSep a t
    conv_lhs => unfold splitSep
    rw [if_neg hc, ih t (fun hmem => h (List.mem_cons_of_mem _ hmem))]

/-- `splitSep` is a left inverse of `joinSep` on non-empty lists of
separator-free parts. -/
theorem splitSep_joinSep (a : Nat) :
    ∀ (parts : List Str), parts ≠ [] → (∀ s ∈ parts, a ∉ s) →
      splitSep a (joinSep a parts) = parts := by
  intro parts
  induction parts with
  | nil => intro h _; exact absurd rfl h
  | cons s ss ih =>
    intro _ hfree
    cases ss with
    | nil =>
      show splitSep a (joinSep a [s]) = [s]
      unfold joinSep
      exact splitSep_no_sep a s (hfree s (List.mem_cons_self _ _))
    | cons s2 ss2 =>
      show splitSep a (s ++ a :: joinSep a (s2 :: ss2)) = s :: s2 :: ss2
      rw [splitSep_append_sep a s _ (hfree s (List.mem_cons_self _ _))]
      rw [ih (by simp) (fun x hx => hfree x (List.mem_cons_of_mem _ hx))]

/-- Characters of a join are the separator or characters of the parts. -/
theorem mem_joinSep {a c : Nat} :
    ∀ {parts : List Str}, c ∈ joinSep a parts → c = a ∨ ∃ p ∈ parts, c ∈ p := by
  intro parts
  induction parts with
  | nil => intro h; exact absurd h (List.not_mem_nil c)
  | cons s ss ih =>
    intro h
    cases ss with
    | nil =>
      right
      exact ⟨s, List.mem_cons_self _ _, h⟩
    | cons s2 ss2 =>
      have h2 : c ∈ s ++ a :: joinSep a (s2 :: ss2) := h
      rcases List.mem_append.mp h2 with h3 | h3
      · right
        exact ⟨s, List.mem_cons_self _ _, h3⟩
      · rcases List.mem_cons.mp h3 with rfl | h4
        · left; rfl
        · rcases ih h4 with h5 | ⟨p, hp, hcp⟩
          · left; exact h5
          · right; exact ⟨p, List.mem_cons_of_mem _ hp, hcp⟩

/-- Reading back a serialized pair: the name. -/
theorem segName_serializePair (n v : Str) (hn : (61 : Nat) ∉ n) :
    segName (n ++ 61 :: v) = n := by
  unfold segName
  rw [List.takeWhile_append_of_pos
    (by
      intro x hx
      simp only [Bool.not_eq_true']
      exact decide_eq_false (fun heq => hn (heq ▸ hx)))]
  rw [List.takeWhile_cons]
  simp

/-- Reading back a serialized pair: the value. -/
theorem segValue_serializePair (n v : Str) (hn : (61 : Nat) ∉ n) :
    segValue (n ++ 61 :: v) = v := by
  unfold segValue
  rw [List.dropWhile_append_of_pos
    (by
      intro x hx
      simp only [Bool.not_eq_true']
      exact decide_eq_false (fun heq => hn (heq ▸ hx)))]
  rw [List.dropWhile_cons]
  simp

/-- Pairs parsed from a query string are well behaved: no `=` in the
name, no `&` in either component, and all characters come from the
query. -/
theorem queryPairs_good (q : Str) :
    ∀ p ∈ queryPairs q, (61 : Nat) ∉ p.1 ∧ (38 : Nat) ∉ p.1 ∧ (38 : Nat) ∉ p.2 ∧
      (∀ c ∈ p.1, c ∈ q) ∧ (∀ c ∈ p.2, c ∈ q) := by
  intro p hp
  unfold queryPairs at hp
  rcases List.mem_map.mp hp with ⟨seg, hseg, rfl⟩
  unfold querySegments at hseg
  have hseg2 : seg ∈ splitSep 38 q := (List.mem_filter.mp hseg).1
  have hsegfree : (38 : Nat) ∉ seg := not_mem_of_mem_splitSep hseg2
  have hsegsub : ∀ c ∈ seg, c ∈ q := fun c hc => mem_of_mem_splitSep hseg2 hc
  have hname_sub : ∀ c ∈ segName seg, c ∈ seg := by
    intro c hc
    exact (List.takeWhile_sublist _).mem hc
  have hvalue_sub : ∀ c ∈ segValue seg, c ∈ seg := by
    intro c hc
    have h1 : c ∈ seg.dropWhile (fun c => !decide (c = 61)) :=
      (List.drop_sublist _ _).mem hc
    exact (List.dropWhile_sublist _).mem h1
  refine ⟨?_, ?_, ?_, fun c hc => hsegsub c (hname_sub c hc),
    fun c hc => hsegsub c (hvalue_sub c hc)⟩
  · intro hmem
    have := List.mem_takeWhile_imp hmem
    simp at this
  · exact fun hmem => hsegfree (hname_sub _ hmem)
  · exact fun hmem => hsegfree (hvalue_sub _ hmem)

/-- Reading back a serialized pair list recovers the pairs, provided the
names contain no `=` and neither component contains `&`. -/
theorem queryPairs_serializePairs (ps : List (Str × Str)) (hne : ps ≠ [])
    (hgood : ∀ p ∈ ps, (61 : Nat) ∉ p.1 ∧ (38 : Nat) ∉ p.1 ∧ (38 : Nat) ∉ p.2) :
    queryPairs (serializePairs ps) = ps := by
  unfold queryPairs querySegments serializePairs
  have hsplit : splitSep 38 (joinSep 38 (ps.map serializePair)) = ps.map serializePair := by
    refine splitSep_joinSep 38 _ ?_ ?_
    · simp [hne]
    · intro s hs
      rcases List.mem_map.mp hs with ⟨p, hp, rfl⟩
      intro hmem
      unfold serializePair at hmem
      rcases List.mem_append.mp hmem with h1 | h1
      · exact (hgood p hp).2.1 h1
      · rcases List.mem_cons.mp h1 with h2 | h2
        · exact absurd h2.symm (by decide)
        · exact (hgood p hp).2.2 h2
  rw [hsplit]
  have hfilter : (ps.map serializePair).filter (fun seg => decide (seg ≠ [])) =
      ps.map serializePair := by
    rw [List.filter_eq_self]
    intro s hs
    rcases List.mem_map.mp hs with ⟨p, -, rfl⟩
    unfold serializePair
    simp
  rw [hfilter, List.map_map]
  have hid : ∀ p ∈ ps, ((fun seg => (segName seg, segValue seg)) ∘ serializePair) p = p := by
    intro p hp
    show (segName (p.1 ++ 61 :: p.2), segValue (p.1 ++ 61 :: p.2)) = p
    rw [segName_serializePair _ _ (hgood p hp).1, segValue_serializePair _ _ (hgood p hp).1]
  rw [List.map_congr_left hid, List.map_id']

/-- `takeWhile`/`dropWhile` on a satisfying block followed by a stopping
character (or nothing). -/
theorem takeWhile_append_stop {p : Nat → Bool} {a : Str} (b : Str)
    (ha : ∀ x ∈ a, p x = true) (hb : ∀ c cs, b = c :: cs → p c = false) :
    (a ++ b).takeWhile p = a ∧ (a ++ b).dropWhile p = b := by
  induction a with
  | nil =>
    cases b with
    | nil => simp
    | cons c cs =>
      have hc := hb c cs rfl
      simp [List.takeWhile_cons, List.dropWhile_cons, hc]
  | cons x xs ih =>
    have hx : p x = true := ha x (List.mem_cons_self _ _)
    have ih' := ih (fun y hy => ha y (List.mem_cons_of_mem _ hy))
    simp [List.takeWhile_cons, List.dropWhile_cons, hx, ih'.1, ih'.2]

/-- `takeWhile`/`dropWhile` on a fully satisfying list. -/
theorem takeWhile_all {p : Nat → Bool} {l : Str} (h : ∀ x ∈ l, p x = true) :
    l.takeWhile p = l ∧ l.dropWhile p = [] := by
  have h2 := takeWhile_append_stop (a := l) [] h (fun c cs hcc => List.noConfusion hcc)
  rw [List.append_nil] at h2
  exact h2

/-- `parseQF` on the empty tail. -/
theorem parseQF_none_none : parseQF [] = (none, none) := rfl

/-- `parseQF` on a fragment-only tail. -/
theorem parseQF_none_some (fs : Str) : parseQF (35 :: fs) = (none, some fs) := rfl

/-- `parseQF` on a query-only tail. -/
theorem parseQF_some_none (qs : Str) (hq : ∀ c ∈ qs, c ≠ (35 : Nat)) :
    parseQF (63 :: qs) = (some qs, none) := by
  have hqs : ∀ x ∈ qs, (!decide (x = 35)) = true := by
    intro x hx
    simpa using hq x hx
  have hall := takeWhile_all hqs
  show (match qs.dropWhile (fun k => !decide (k = 35)) with
    | [] => (some (qs.takeWhile (fun k => !decide (k = 35))), none)
    | d :: f =>
      if d = 35 then (some (qs.takeWhile (fun k => !decide (k = 35))), some f)
      else (some (qs.takeWhile (fun k => !decide (k = 35))), none)) = (some qs, none)
  rw [hall.2, hall.1]

/-- `parseQF` on a query-and-fragment tail. -/
theorem parseQF_some_some (qs fs : Str) (hq : ∀ c ∈ qs, c ≠ (35 : Nat)) :
    parseQF (63 :: (qs ++ 35 :: fs)) = (some qs, some fs) := by
  have hqs : ∀ x ∈ qs, (!decide (x = 35)) = true := by
    intro x hx
    simpa using hq x hx
  have hstop := takeWhile_append_stop (a := qs) (35 :: fs) hqs
    (by intro c cs hcc; cases hcc; decide)
  show (match (qs ++ 35 :: fs).dropWhile (fun k => !decide (k = 35)) with
    | [] => (some ((qs ++ 35 :: fs).takeWhile (fun k => !decide (k = 35))), none)
    | d :: f =>
      if d = 35 then (some ((qs ++ 35 :: fs).takeWhile (fun k => !decide (k = 35))), some f)
      else (some ((qs ++ 35 :: fs).takeWhile (fun k => !decide (k = 35))), none)) =
    (some qs, some fs)
  rw [hstop.2, hstop.1]
  rfl

/-- Inversion for the query component of `parseQF`: it contains no `#`. -/
theorem parseQF_query_chars (r4 : Str) (qs : Str) (h : (parseQF r4).1 = some qs) :
    ∀ c ∈ qs, c ≠ (35 : Nat) := by
  match r4 with
  | [] => exact absurd h (by simp [parseQF])
  | c :: rest =>
    by_cases hc : c = 63
    · subst hc
      change (match rest.dropWhile (fun k => !decide (k = 35)) with
        | [] => (some (rest.takeWhile (fun k => !decide (k = 35))), none)
        | d :: f =>
          if d = 35 then (some (rest.takeWhile (fun k => !decide (k = 35))), some f)
          else (some (rest.takeWhile (fun k => !decide (k = 35))), none)).1 = some qs at h
      have hqs : qs = rest.takeWhile (fun k => !decide (k = 35)) := by
        rcases hsplit : rest.dropWhile (fun k => !decide (k = 35)) with - | ⟨d, f⟩ <;>
          rw [hsplit] at h
        · exact (Option.some.inj h).symm
        · by_cases hd : d = 35
          · subst hd
            exact (Option.some.inj h).symm
          · change (if d = 35 then (some (rest.takeWhile (fun k => !decide (k = 35))), some f)
              else (some (rest.takeWhile (fun k => !decide (k = 35))), none)).1 = some qs at h
            rw [if_neg hd] at h
            exact (Option.some.inj h).symm
      subst hqs
      intro x hx
      have hmem := List.mem_takeWhile_imp hx
      simpa using hmem
    · change (if c = 63 then _ else
        if c = 35 then ((none : Option Str), some rest) else (none, none)).1 = some qs at h
      rw [if_neg hc] at h
      by_cases hc2 : c = 35
      · rw [if_pos hc2] at h
        exact absurd h (by simp)
      · rw [if_neg hc2] at h
        exact absurd h (by simp)

/-- `parseRest` on a well-shaped host/path/tail concatenation. -/
theorem parseRest_eq (host path tail : Str) (hh : host ≠ [])
    (hhok : ∀ c ∈ host, isHostEnd c = false)
    (hp : ∃ p, path = 47 :: p)
    (hpok : ∀ c ∈ path, isPathEnd c = false)
    (htail : ∀ c cs, tail = c :: cs → isPathEnd c = true) :
    parseRest (host ++ (path ++ tail)) =
      some (host, path, (parseQF tail).1, (parseQF tail).2) := by
  obtain ⟨p', hpeq⟩ := hp
  have hhall : ∀ x ∈ host, (fun c => !isHostEnd c) x = true := by
    intro x hx
    simp [hhok x hx]
  have hhost := takeWhile_append_stop (a := host) (path ++ tail) hhall
    (by
      intro c cs hcc
      rw [hpeq, List.cons_append] at hcc
      cases hcc
      decide)
  have hpall : ∀ x ∈ path, (fun c => !isPathEnd c) x = true := by
    intro x hx
    simp [hpok x hx]
  have hpath := takeWhile_append_stop (a := path) tail hpall
    (by
      intro c cs hcc
      simp [htail c cs hcc])
  have hpne : path ≠ [] := by
    rw [hpeq]
    simp
  unfold parseRest
  rw [hhost.1, if_neg hh, hhost.2]
  show some (host,
      (if (path ++ tail).takeWhile (fun c => !isPathEnd c) = [] then [47]
       else (path ++ tail).takeWhile (fun c => !isPathEnd c)),
      (parseQF ((path ++ tail).dropWhile (fun c => !isPathEnd c))).1,
      (parseQF ((path ++ tail).dropWhile (fun c => !isPathEnd c))).2) =
    some (host, path, (parseQF tail).1, (parseQF tail).2)
  rw [hpath.1, hpath.2, if_neg hpne]

/-- `parseUrl` on a well-shaped serialized URL. -/
theorem parse_serialize_core (sch host path tail : Str) (hsne : sch ≠ [])
    (hsal : ∀ c ∈ sch, isAlphaCU c = true) (hh : host ≠ [])
    (hhok : ∀ c ∈ host, isHostEnd c = false)
    (hp : ∃ p, path = 47 :: p)
    (hpok : ∀ c ∈ path, isPathEnd c = false)
    (htail : ∀ c cs, tail = c :: cs → isPathEnd c = true) :
    parseUrl (sch ++ 58 :: 47 :: 47 :: (host ++ (path ++ tail))) =
      some ⟨sch, host, path, (parseQF tail).1, (parseQF tail).2⟩ := by
  have hstep1 := takeWhile_append_stop (a := sch)
    (58 :: 47 :: 47 :: (host ++ (path ++ tail))) hsal
    (by intro c cs hcc; cases hcc; decide)
  unfold parseUrl
  rw [hstep1.1, if_neg hsne, List.drop_left]
  show (match parseRest (host ++ (path ++ tail)) with
    | some (h, p, q, f) => some (UrlModel.mk sch h p q f)
    | none => none) =
    some (UrlModel.mk sch host path (parseQF tail).1 (parseQF tail).2)
  rw [parseRest_eq host path tail hh hhok hp hpok htail]

/-- `serializeUrl` is a right inverse of `parseUrl` on well-formed URLs. -/
theorem parse_serialize (u : UrlModel) (h : WellFormedUrl u) :
    parseUrl (serializeUrl u) = some u := by
  obtain ⟨sch, host, path, query, fragment⟩ := u
  obtain ⟨hsne, hsal, hhne, hhok, hpstart, hpok, hqc⟩ := h
  rcases query with - | qs <;> rcases fragment with - | fs
  · have hser : serializeUrl ⟨sch, host, path, none, none⟩ =
        sch ++ 58 :: 47 :: 47 :: (host ++ (path ++ [])) := by
      simp [serializeUrl]
    rw [hser, parse_serialize_core sch host path [] hsne hsal hhne hhok hpstart hpok
      (fun c cs hcc => List.noConfusion hcc)]
    rfl
  · have hser : serializeUrl ⟨sch, host, path, none, some fs⟩ =
        sch ++ 58 :: 47 :: 47 :: (host ++ (path ++ (35 :: fs))) := by
      simp [serializeUrl]
    rw [hser, parse_serialize_core sch host path (35 :: fs) hsne hsal hhne hhok hpstart hpok
      (by intro c cs hcc; cases hcc; decide)]
    rfl
  · have hser : serializeUrl ⟨sch, host, path, some qs, none⟩ =
        sch ++ 58 :: 47 :: 47 :: (host ++ (path ++ (63 :: qs))) := by
      simp [serializeUrl]
    rw [hser, parse_serialize_core sch host path (63 :: qs) hsne hsal hhne hhok hpstart hpok
      (by intro c cs hcc; cases hcc; decide)]
    rw [parseQF_some_none qs (hqc qs rfl)]
  · have hser : serializeUrl ⟨sch, host, path, some qs, some fs⟩ =
        sch ++ 58 :: 47 :: 47 :: (host ++ (path ++ (63 :: (qs ++ 35 :: fs)))) := by
      simp [serializeUrl]
    rw [hser, parse_serialize_core sch host path (63 :: (qs ++ 35 :: fs)) hsne hsal hhne hhok
      hpstart hpok (by intro c cs hcc; cases hcc; decide)]
    rw [parseQF_some_some qs fs (hqc qs rfl)]

/-- Every URL produced by `parseUrl` is well formed. -/
theorem parseUrl_wellFormed {s : Str} {u : UrlModel} (h : parseUrl s = some u) :
    WellFormedUrl u := by
  unfold parseUrl at h
  by_cases hs : s.takeWhile isAlphaCU = []
  · rw [if_pos hs] at h
    exact absurd h (by simp)
  · rw [if_neg hs] at h
    split at h
    case _ r2 heqdrop =>
      split at h
      case _ hst p q f heqrest =>
        have hu := Option.some.inj h
        subst hu
        unfold parseRest at heqrest
        by_cases hhost : r2.takeWhile (fun c => !isHostEnd c) = []
        · rw [if_pos hhost] at heqrest
          exact absurd heqrest (by simp)
        · rw [if_neg hhost] at heqrest
          have hinj := Option.some.inj heqrest
          have e1 : r2.takeWhile (fun c => !isHostEnd c) = hst :=
            congrArg (fun x => x.1) hinj
          have e2 : (if (r2.dropWhile (fun c => !isHostEnd c)).takeWhile
                (fun c => !isPathEnd c) = [] then [47]
              else (r2.dropWhile (fun c => !isHostEnd c)).takeWhile
                (fun c => !isPathEnd c)) = p :=
            congrArg (fun x => x.2.1) hinj
          have e3 : (parseQF ((r2.dropWhile (fun c => !isHostEnd c)).dropWhile
              (fun c => !isPathEnd c))).1 = q :=
            congrArg (fun x => x.2.2.1) hinj
          refine ⟨hs, ?_, ?_, ?_, ?_, ?_, ?_⟩
          · intro c hc
            exact List.mem_takeWhile_imp hc
          · show hst ≠ []
            rw [← e1]
            exact hhost
          · show ∀ c ∈ hst, isHostEnd c = false
            intro c hc
            rw [← e1] at hc
            have := List.mem_takeWhile_imp hc
            simpa using this
          · show ∃ pp, p = 47 :: pp
            by_cases hp0 : (r2.dropWhile (fun c => !isHostEnd c)).takeWhile
                (fun c => !isPathEnd c) = []
            · rw [if_pos hp0] at e2
              exact ⟨[], e2.symm⟩
            · rw [if_neg hp0] at e2
              cases hr3 : r2.dropWhile (fun c => !isHostEnd c) with
              | nil =>
                rw [hr3] at hp0
                exact absurd rfl hp0
              | cons h0 t0 =>
                have hh0 := List.head?_dropWhile_not (fun c => !isHostEnd c) r2
                rw [hr3] at hh0
                have hhostend : isHostEnd h0 = true := by
                  have : (!isHostEnd h0) = false := hh0
                  simpa using this
                rw [hr3] at e2 hp0
                rw [List.takeWhile_cons] at e2 hp0
                by_cases hpe : (!isPathEnd h0) = true
                · rw [if_pos hpe] at e2
                  have hpathend : isPathEnd h0 = false := by simpa using hpe
                  have h47 : h0 = 47 := by
                    have hA : (h0 = 47 ∨ h0 = 63) ∨ h0 = 35 := by
                      simpa [isHostEnd] using hhostend
                    have hB : ¬ (h0 = 63 ∨ h0 = 35) := by
                      simpa [isPathEnd] using hpathend
                    omega
                  exact ⟨t0.takeWhile (fun c => !isPathEnd c), by rw [← e2, h47]⟩
                · rw [if_neg hpe] at hp0
                  exact absurd rfl hp0
          · show ∀ c ∈ p, isPathEnd c = false
            intro c hc
            by_cases hp0 : (r2.dropWhile (fun c => !isHostEnd c)).takeWhile
                (fun c => !isPathEnd c) = []
            · rw [if_pos hp0] at e2
              rw [← e2] at hc
              rcases List.mem_singleton.mp hc with rfl
              decide
            · rw [if_neg hp0] at e2
              rw [← e2] at hc
              have := List.mem_takeWhile_imp hc
              simpa using this
          · show ∀ qs, q = some qs → ∀ c ∈ qs, c ≠ 35
            intro qs hq
            exact parseQF_query_chars
              ((r2.dropWhile (fun c => !isHostEnd c)).dropWhile (fun c => !isPathEnd c))
              qs (by rw [e3, hq])
      case _ heqrest => exact absurd h (by simp)
    case _ h2 => exact absurd h (by simp)

/-- Deleting the tracking parameters preserves well-formedness. -/
theorem wellFormed_deleteTracking (u : UrlModel) (h : WellFormedUrl u) :
    WellFormedUrl (deleteTrackingParams u) := by
  obtain ⟨hsne, hsal, hhne, hhok, hpstart, hpok, hqc⟩ := h
  refine ⟨hsne, hsal, hhne, hhok, hpstart, hpok, ?_⟩
  intro q' hq' c hc
  change (if (urlQueryPairs u).filter (fun p => decide (p.1 ∉ trackingParams)) = []
    then none
    else some (serializePairs
      ((urlQueryPairs u).filter (fun p => decide (p.1 ∉ trackingParams))))) =
      some q' at hq'
  by_cases hk : (urlQueryPairs u).filter (fun p => decide (p.1 ∉ trackingParams)) = []
  · rw [if_pos hk] at hq'
    exact absurd hq' (by simp)
  · rw [if_neg hk] at hq'
    have hq2 : q' = serializePairs
        ((urlQueryPairs u).filter (fun p => decide (p.1 ∉ trackingParams))) :=
      (Option.some.inj hq').symm
    rw [hq2] at hc
    unfold serializePairs at hc
    rcases mem_joinSep hc with rfl | ⟨sp, hsp, hcsp⟩
    · decide
    · rcases List.mem_map.mp hsp with ⟨pr, hpr, rfl⟩
      have hpr2 : pr ∈ urlQueryPairs u := (List.mem_filter.mp hpr).1
      cases hu : u.query with
      | none =>
        unfold urlQueryPairs at hpr2
        rw [hu] at hpr2
        exact absurd hpr2 (List.not_mem_nil pr)
      | some q0 =>
        unfold urlQueryPairs at hpr2
        rw [hu] at hpr2
        have hgood := queryPairs_good q0 pr hpr2
        have hq0 : ∀ k ∈ q0, k ≠ (35 : Nat) := hqc q0 hu
        unfold serializePair at hcsp
        rcases List.mem_append.mp hcsp with h1 | h1
        · exact hq0 c (hgood.2.2.2.1 c h1)
        · rcases List.mem_cons.mp h1 with rfl | h2
          · decide
          · exact hq0 c (hgood.2.2.2.2 c h2)

/-! ## C6 claim theorems -/

/-- C6 counterexample: a bookmark created for a URL carrying the tracking
query parameter `utm_term` stores the URL unchanged: `normalizeUrl`
deletes only its five hard-coded parameter names, so `utm_term` (a
`utm_*` tracking parameter) survives, contradicting the claim that all
`utm_*` parameters are stripped. -/
theorem normalizeUrl_cex :
    (createBookmark (str ("u1")) ⟨str ("https://example.com/a?utm_term=x"), []⟩ true
        []).1.url = str ("https://example.com/a?utm_term=x") ∧
    (str ("utm_term")).IsInfix (str ("https://example.com/a?utm_term=x")) := by
  constructor
  · decide
  · decide

/-- C6 (amended): for every parseable URL, the stored URL (equal to
`normalizeUrl` of the input) is the re-serialization of the parsed URL
with exactly the pairs named `utm_source`, `utm_medium`, `utm_campaign`,
`fbclid` or `gclid` removed from the query; the scheme, host, path and
fragment are preserved, as are all other query pairs (other `utm_*` or
click-id parameters included) in order. -/
theorem normalizeUrl_props (url : Str) (u : UrlModel) (h : parseUrl url = some u) :
    normalizeUrl url = serializeUrl (deleteTrackingParams u) ∧
    parseUrl (normalizeUrl url) = some (deleteTrackingParams u) ∧
    (deleteTrackingParams u).scheme = u.scheme ∧
    (deleteTrackingParams u).host = u.host ∧
    (deleteTrackingParams u).path = u.path ∧
    (deleteTrackingParams u).fragment = u.fragment ∧
    urlQueryPairs (deleteTrackingParams u) =
      (urlQueryPairs u).filter (fun p => decide (p.1 ∉ trackingParams)) ∧
    (∀ (ow : Str) (tags : List Str) (ro : Bool) (st : List StoredBookmark),
      (createBookmark ow ⟨url, tags⟩ ro st).1.url = normalizeUrl url) := by
  have h1 : normalizeUrl url = serializeUrl (deleteTrackingParams u) := by
    unfold normalizeUrl
    rw [h]
  refine ⟨h1, ?_, rfl, rfl, rfl, rfl, ?_, fun ow tags ro st => rfl⟩
  · rw [h1]
    exact parse_serialize _ (wellFormed_deleteTracking u (parseUrl_wellFormed h))
  · show urlQueryPairs (deleteTrackingParams u) =
      (urlQueryPairs u).filter (fun p => decide (p.1 ∉ trackingParams))
    have hqval : (deleteTrackingParams u).query =
        (if (urlQueryPairs u).filter (fun p => decide (p.1 ∉ trackingParams)) = []
         then none
         else some (serializePairs
           ((urlQueryPairs u).filter (fun p => decide (p.1 ∉ trackingParams))))) := rfl
    unfold urlQueryPairs
    rw [hqval]
    by_cases hk : (urlQueryPairs u).filter (fun p => decide (p.1 ∉ trackingParams)) = []
    · rw [if_pos hk]
      unfold urlQueryPairs at hk
      exact hk.symm
    · rw [if_neg hk]
      show queryPairs (serializePairs
        ((urlQueryPairs u).filter (fun p => decide (p.1 ∉ trackingParams)))) = _
      refine queryPairs_serializePairs _ hk ?_
      intro p hp
      have hp2 := (List.mem_filter.mp hp).1
      unfold urlQueryPairs at hp2
      cases hu : u.query with
      | none =>
        rw [hu] at hp2
        exact absurd hp2 (List.not_mem_nil p)
      | some q0 =>
        rw [hu] at hp2
        have hgood := queryPairs_good q0 p hp2
        exact ⟨hgood.1, hgood.2.1, hgood.2.2.1⟩

/-- Witness for C6 (amended) at the scenario URL
`https://example.com/foo-bar?utm_source=x`. -/
theorem normalizeUrl_props_witness :
    normalizeUrl (str ("https://example.com/foo-bar?utm_source=x")) =
      serializeUrl (deleteTrackingParams (UrlModel.mk (str ("https"))
        (str ("example.com")) (str ("/foo-bar")) (some (str ("utm_source=x"))) none)) :=
  (normalizeUrl_props (str ("https://example.com/foo-bar?utm_source=x")) _ (by decide)).1
